import Mathlib

/-!
Verification development for the PuncturedFEM repository.

The repository material under `src/` consists of the tutorial notebooks
(`ex1b-pacman`, `ex1e-heavy-sampling`, `ex2-pacman-fem`, the `ghost` notebook)
and a legacy MATLAB driver script.  The computational core they invoke
(the `puncturedfem` package: `Polynomial`, `MeshCell`, `NystromSolver`,
`LocalFunction`, the plotting layer) is not part of `src/`, so the core is
modelled here from the specification (`spec.md`), with each modelled
definition carrying a doc comment naming what is missing.  All definitions
are executable and work in exact rational arithmetic, the idealization the
spec itself appeals to ("exact symmetry holds only in infinite-precision
arithmetic", "to near machine precision").
-/

namespace PuncturedFem

/-- Modelled from the spec: a `Polynomial` term (one monomial), "mapping from
bivariate exponent pair (i,j) to real coefficient"; the notebooks build these
as `pf.Polynomial([[12.0, 1, 1]])`, a list of (coefficient, i, j) triples.
We keep exactly that representation: coefficient in `ℚ` and the two
exponents. -/
abbrev Monomial : Type := ℚ × ℕ × ℕ

/-- Modelled from the spec: a bivariate `Polynomial` is a list of monomial
terms (zero coefficients may be present, duplicate exponent pairs allowed,
matching the list-of-triples constructor used throughout the notebooks). -/
abbrev Polynomial2 : Type := List Monomial

/-- Pointwise evaluation of a monomial. -/
def monomialEval (m : Monomial) (x y : ℚ) : ℚ := m.1 * x ^ m.2.1 * y ^ m.2.2

/-- Modelled from the spec: pointwise evaluation of a `Polynomial`. -/
def polyEval (p : Polynomial2) (x y : ℚ) : ℚ := (p.map (fun m => monomialEval m x y)).sum

/-- Modelled from the spec: `Polynomial` addition (list concatenation of terms). -/
def polyAdd (p q : Polynomial2) : Polynomial2 := p ++ q

/-- Product of two monomials: coefficients multiply, exponents add. -/
def monomialMul (m m2 : Monomial) : Monomial :=
  (m.1 * m2.1, m.2.1 + m2.2.1, m.2.2 + m2.2.2)

/-- Modelled from the spec: `Polynomial` multiplication, term by term. -/
def polyMul (p q : Polynomial2) : Polynomial2 := p.flatMap (fun m => q.map (monomialMul m))

/-- Partial derivative in the first variable of a monomial:
`c x^a y^b ↦ c a x^(a-1) y^b` (for `a = 0` the coefficient is `0`). -/
def monomialDx (m : Monomial) : Monomial := (m.1 * (m.2.1 : ℚ), m.2.1 - 1, m.2.2)

/-- Partial derivative in the second variable of a monomial. -/
def monomialDy (m : Monomial) : Monomial := (m.1 * (m.2.2 : ℚ), m.2.1, m.2.2 - 1)

/-- Modelled from the spec: the gradient components of a `Polynomial`
("supports ... gradient"); first component. -/
def polyDx (p : Polynomial2) : Polynomial2 := p.map monomialDx

/-- Second gradient component. -/
def polyDy (p : Polynomial2) : Polynomial2 := p.map monomialDy

/-- The two second-derivative terms contributed by one monomial to the
Laplacian `∂²/∂x₁² + ∂²/∂x₂²`. -/
def monomialLap (m : Monomial) : Polynomial2 :=
  [monomialDx (monomialDx m), monomialDy (monomialDy m)]

/-- Modelled from the spec: the Laplacian of a `Polynomial`
(`∂²/∂x₁² + ∂²/∂x₂²`), term by term. -/
def polyLaplacian (p : Polynomial2) : Polynomial2 := p.flatMap monomialLap

/-- Modelled from the spec: the canonical polynomial anti-Laplacian
("a fixed construction over monomials", spec §4.2/§9).  For the monomial
`c x^a y^b` it takes `c x^(a+2) y^b / ((a+1)(a+2))` and recursively corrects
the excess `y`-curvature; the recursion lowers the `y`-exponent by two, so it
terminates.  `antiLaplacianAux b c a` is the anti-Laplacian of `c x^a y^b`. -/
def antiLaplacianAux : ℕ → ℚ → ℕ → Polynomial2
  | 0, c, a => [(c / (((a : ℚ) + 1) * ((a : ℚ) + 2)), a + 2, 0)]
  | 1, c, a => [(c / (((a : ℚ) + 1) * ((a : ℚ) + 2)), a + 2, 1)]
  | b + 2, c, a =>
      (c / (((a : ℚ) + 1) * ((a : ℚ) + 2)), a + 2, b + 2) ::
        antiLaplacianAux b
          (-(c * ((b : ℚ) + 2) * ((b : ℚ) + 1)) / (((a : ℚ) + 1) * ((a : ℚ) + 2))) (a + 2)

/-- Canonical anti-Laplacian of one monomial. -/
def monomialAntiLaplacian (m : Monomial) : Polynomial2 := antiLaplacianAux m.2.2 m.1 m.2.1

/-- Modelled from the spec: the canonical `Polynomial` anti-Laplacian,
extended term by term ("finds *a* bivariate polynomial whose Laplacian equals
the stored Laplacian polynomial, choosing a canonical representative"). -/
def polyAntiLaplacian (p : Polynomial2) : Polynomial2 := p.flatMap monomialAntiLaplacian

/-- The exact integral of the monomial `c x^a y^b` over the unit square
`[0,1] × [0,1]`, namely `c / ((a+1)(b+1))`. -/
def monomialSquareIntegral (m : Monomial) : ℚ := m.1 / (((m.2.1 : ℚ) + 1) * ((m.2.2 : ℚ) + 1))

/-- The exact integral of a represented polynomial over the unit square,
summed monomial by monomial.  This is the reference value (what the spec
writes `∫P²`, `∫|∇P|²` for the unit-square cell) against which the
boundary-integral computations below are compared. -/
def squareIntegral (p : Polynomial2) : ℚ := (p.map monomialSquareIntegral).sum

/-- The exact line integral `∫_0^1 (x0 + dx·t)^a (y0 + dy·t)^b dt` along an
affine boundary segment, expanded by the binomial theorem and integrated
term by term; this is the exact-arithmetic counterpart of the per-edge
quadrature sums of the missing library. -/
def edgeMonomialIntegral (x0 dx y0 dy : ℚ) (a b : ℕ) : ℚ :=
  ∑ i ∈ Finset.range (a + 1), ∑ j ∈ Finset.range (b + 1),
    (a.choose i : ℚ) * (b.choose j : ℚ) * x0 ^ (a - i) * dx ^ i * y0 ^ (b - j) * dy ^ j
      / ((i : ℚ) + (j : ℚ) + 1)

/-- An oriented straight boundary segment, from `(x0,y0)` to `(x1,y1)`. -/
structure Seg where
  x0 : ℚ
  y0 : ℚ
  x1 : ℚ
  y1 : ℚ
deriving DecidableEq

/-- Horizontal displacement of a segment. -/
def Seg.dx (s : Seg) : ℚ := s.x1 - s.x0

/-- Vertical displacement of a segment. -/
def Seg.dy (s : Seg) : ℚ := s.y1 - s.y0

/-- Modelled from the spec: the positively oriented (counterclockwise)
boundary of the unit-square cell of the worked examples, as the ordered
chain of its four edges. -/
def unitSquareBoundary : List Seg :=
  [⟨0, 0, 1, 0⟩, ⟨1, 0, 1, 1⟩, ⟨1, 1, 0, 1⟩, ⟨0, 1, 0, 0⟩]

/-- The exact contribution of one boundary segment to `∮ m dy` for a
monomial `m`. -/
def monomialLineIntegralDy (m : Monomial) (s : Seg) : ℚ :=
  s.dy * m.1 * edgeMonomialIntegral s.x0 s.dx s.y0 s.dy m.2.1 m.2.2

/-- The exact contribution of one boundary segment to `∮ m dx`. -/
def monomialLineIntegralDx (m : Monomial) (s : Seg) : ℚ :=
  s.dx * m.1 * edgeMonomialIntegral s.x0 s.dx s.y0 s.dy m.2.1 m.2.2

/-- The exact boundary integral `∮ m dy` over the boundary chain `segs` of a
polygonal mesh cell, segment by segment. -/
def monomialFluxDy (segs : List Seg) (m : Monomial) : ℚ :=
  (segs.map (monomialLineIntegralDy m)).sum

/-- The exact boundary integral `∮ m dx` over the boundary chain `segs`. -/
def monomialFluxDx (segs : List Seg) (m : Monomial) : ℚ :=
  (segs.map (monomialLineIntegralDx m)).sum

/-- The exact boundary integral `∮ p dy` of a polynomial over a cell
boundary, edge by edge and term by term — the exact-arithmetic form of the
boundary quadrature sums used by the missing Local Function Engine. -/
def fluxDy (segs : List Seg) (p : Polynomial2) : ℚ := (p.map (monomialFluxDy segs)).sum

/-- The exact boundary integral `∮ p dx` of a polynomial over a cell
boundary. -/
def fluxDx (segs : List Seg) (p : Polynomial2) : ℚ := (p.map (monomialFluxDx segs)).sum

/-- The exact outward-flux boundary integral `∮ ∂W/∂n ds = ∮ W_x dy - W_y dx`
over a cell boundary, computed edge by edge. -/
def netFlux (segs : List Seg) (W : Polynomial2) : ℚ :=
  fluxDy segs (polyDx W) - fluxDx segs (polyDy W)

/-- The `x`-antiderivative of a monomial: `c x^a y^b ↦ c x^(a+1) y^b/(a+1)`. -/
def monomialAntiX (m : Monomial) : Monomial :=
  (m.1 / ((m.2.1 : ℚ) + 1), m.2.1 + 1, m.2.2)

/-- Term-by-term `x`-antiderivative of a polynomial. -/
def polyAntiX (p : Polynomial2) : Polynomial2 := p.map monomialAntiX

/-- The exact integral `∬_K F dx` of the represented polynomial `F` over the
region enclosed by the boundary chain `segs` of a polygonal mesh cell,
evaluated by the classical Gauss-Green formula
`∬_K F dx = ∮_∂K (∫F dx₁) dx₂` (the standard exact method of integrating a
polynomial over a polygon; with the cell's orientation convention — outer
boundary counterclockwise, hole boundaries clockwise — the hole loops
subtract their content automatically).  This is the reference value the spec
writes `∫P²`, `∫|∇P|²` for a cell; on the unit-square cell it provably
coincides with the independent per-monomial product formula
`squareIntegral` (theorem `polygonIntegral_unitSquare`). -/
def polygonIntegral (segs : List Seg) (F : Polynomial2) : ℚ :=
  fluxDy segs (polyAntiX F)

/-- One-monomial form of `polygonIntegral`. -/
def polygonMonoIntegral (segs : List Seg) (m : Monomial) : ℚ :=
  monomialFluxDy segs (monomialAntiX m)

/-- Whether a list of segments is a connected chain that starts at `p` and
ends at `q` (each segment starts where the previous one ended). -/
def chainFrom (p : ℚ × ℚ) : List Seg → (ℚ × ℚ) → Bool
  | [], q => decide (p = q)
  | s :: rest, q => (decide ((s.x0, s.y0) = p)) && chainFrom (s.x1, s.y1) rest q

/-- Whether a segment list is a closed chain (returns to its start point). -/
def isClosedLoop (l : List Seg) : Bool :=
  match l with
  | [] => true
  | s :: _ => chainFrom (s.x0, s.y0) l (s.x0, s.y0)

/-- Modelled from the spec: the boundary of a `MeshCell` is a list of closed
boundary components (one outer boundary plus zero or more hole boundaries,
each a closed chain of edges); `loopsClosed` is that closed-chain invariant,
and the flattened list of all component segments is the cell's sampled
boundary. -/
def loopsClosed (loops : List (List Seg)) : Bool := loops.all isClosedLoop

/-- A multiply-connected polygonal mesh cell: a 4×4 square with a square
hole (outer boundary counterclockwise, hole boundary clockwise) — the
polygonal counterpart of the square-with-circular-hole cell of the worked
examples, used as the concrete witness cell below. -/
def squareWithHoleLoops : List (List Seg) :=
  [[⟨0, 0, 4, 0⟩, ⟨4, 0, 4, 4⟩, ⟨4, 4, 0, 4⟩, ⟨0, 4, 0, 0⟩],
   [⟨1, 1, 1, 3⟩, ⟨1, 3, 3, 3⟩, ⟨3, 3, 3, 1⟩, ⟨3, 1, 1, 1⟩]]

/-- The polynomial `x₁³x₂ + x₁x₂³` (the polynomial part of the worked
example's local function `v`). -/
def witnessPolyV : Polynomial2 := [(1, 3, 1), (1, 1, 3)]

/-- The polynomial `x₁³ + x₁x₂²` (the polynomial part of the worked
example's local function `w`). -/
def witnessPolyW : Polynomial2 := [(1, 3, 0), (1, 1, 2)]

/-- Modelled from the spec: `get_l2_inner_prod` of the missing Local Function
Engine, in exact arithmetic, on the family where every quantity the engine
manipulates is exactly representable: the cell is an arbitrary polygonal
mesh cell given by its sampled boundary chain `segs` (outer boundary plus
hole boundaries, so multiply-connected cells are included), and the local
function is polynomial Poisson data — a polynomial Dirichlet trace together
with its polynomial Laplacian, for which the harmonic part is a harmonic
polynomial and the logarithmic terms vanish.  (For transcendental data such
as `eˣ¹cos x₂` or `ln|x-ξ|` the boundary samples have no exact rational
values, so that regime has no exact embedding.)  Following spec §4.2
("returns `∫ₖ v·w dx` ... reduced to boundary integrals using
anti-Laplacians"), the volumetric integral is evaluated as the outward
boundary flux of an anti-Laplacian of the product:
`∫ v w = ∫ Δ(antiLap(v·w)) = ∮_∂K ∂(antiLap(v·w))/∂n ds`.  Only boundary
integrals over the cell's edge chain appear. -/
def get_l2_inner_prod (segs : List Seg) (v w : Polynomial2) : ℚ :=
  netFlux segs (polyAntiLaplacian (polyMul v w))

/-- Modelled from the spec: `get_h1_semi_inner_prod` of the missing Local
Function Engine, same family (arbitrary polygonal cell boundary `segs`,
polynomial data).  Following spec §4.2 ("returns `∫ₖ ∇v·∇w dx` computed
entirely from boundary quantities ... via a Green's-identity reduction"),
the value is `∮ v ∂w/∂n ds - ∫ v Δw`, with the volumetric term itself
reduced to a boundary flux through an anti-Laplacian.  Note the formula is
manifestly asymmetric in `v` and `w`; its symmetry over every closed cell
boundary is a theorem. -/
def get_h1_semi_inner_prod (segs : List Seg) (v w : Polynomial2) : ℚ :=
  (fluxDy segs (polyMul v (polyDx w)) - fluxDx segs (polyMul v (polyDy w)))
    - netFlux segs (polyAntiLaplacian (polyMul v (polyLaplacian w)))

/-- The constant polynomial `1`, as built in `ex1e-heavy-sampling`
(`one = pf.Polynomial([(1.0, 0, 0)])`). -/
def onePoly : Polynomial2 := [(1, 0, 0)]

/-- Modelled from the spec: the boundary samples of the anti-Laplacian `Φ`
produced by `compute_anti_laplacian_harmonic_part` (code not under `src/`).
Per spec §4.2 and the worked example (`ex2-pacman-fem`, the `PHI_exact`
formula), `Φ = Ψ + Σₖ aₖ Λ(x-ξₖ)` where `Λ(x) = ¼|x|²(ln|x|-1)` and the
anti-Laplacian `Ψ` of the conjugable part is built from an antiderivative
pair `(R, R̂)` of `(ψ, ψ̂)` as `Ψ(x) = ¼(x₁ R(x) + x₂ R̂(x))` (the notebook's
`Ψ̃ = ¼ eˣ¹(x₁ cos x₂ + x₂ sin x₂)` is exactly this construction for
`R = eˣ¹cos x₂`, `R̂ = eˣ¹sin x₂`).  The antiderivative pair is unique only
up to additive constants `(c₁, c₂)`.  `common` collects the parts shared by
any two such anti-Laplacians of the same harmonic part (the `Λ` log terms
with their fixed coefficients), whose transcendental values need not be
representable here. -/
def anti_laplacian_harmonic_part (pts : List (ℚ × ℚ)) (R Rh common : ℚ × ℚ → ℚ) : List ℚ :=
  pts.map (fun p => (p.1 * R p + p.2 * Rh p) / 4 + common p)

/-- Evaluation of the degree-1 polynomial `c₁ x₁ + c₂ x₂` at a point. -/
def linearPolyEval (c1 c2 : ℚ) (p : ℚ × ℚ) : ℚ := c1 * p.1 + c2 * p.2

/-- Modelled from the notebooks: the curve-type tag of an `Edge` with its
curve-specific parameters (`curve_type="sine_wave"` with `amp`, `freq`;
`"circular_arc_deg"` with `theta0`; `"circle"` with `radius`; `"ellipse"`
with semi-axes; default straight line). -/
inductive CurveKind where
  | line : CurveKind
  | circularArcDeg (theta0 : ℚ) : CurveKind
  | circle (radius : ℚ) : CurveKind
  | ellipse (a b : ℚ) : CurveKind
  | sineWave (amp : ℚ) (freq : ℕ) : CurveKind
deriving DecidableEq

/-- Modelled from the spec: an `Edge` — a parameterized curve between two
vertices (equal vertices for a closed hole boundary), carrying its
curve-type tag. -/
structure Edge where
  startVert : ℚ × ℚ
  endVert : ℚ × ℚ
  curve : CurveKind
deriving DecidableEq

/-- Modelled from the spec: the quadrature configuration `get_quad_dict(n)` —
a named set of schemes sharing the sample count `n`, with the Kress grading
parameter sigma (`kress_sig = 7` in the legacy script, required `> 2`). -/
structure QuadDict where
  n : ℕ
  kressSigma : ℚ
deriving DecidableEq

/-- Modelled from the spec: build the quadrature dictionary for sample
count `n`. -/
def get_quad_dict (n : ℕ) : QuadDict := ⟨n, 7⟩

/-- Modelled from the spec: the normalized parameter grid of one edge,
`2n+1` values including both endpoints ("the edge being sampled at 2n+1
points, including the end points", `ex1e`). -/
def sampledParams (n : ℕ) : List ℚ :=
  (List.range (2 * n + 1)).map (fun k : ℕ => (k : ℚ) / (2 * n))

/-- Modelled from the spec: trapezoid arc-length quadrature weights on the
`2n+1` sampled points. -/
def trapezoidWeights (n : ℕ) : List ℚ :=
  (List.range (2 * n + 1)).map (fun _ => 1 / (2 * n))

/-- Modelled from the spec: position of the edge point at normalized
parameter `t`.  Straight edges are exact; the transcendental offsets of the
curved types (arcs, circles, ellipses, sine waves) involve `sin`/`cos` and
have no rational values, so the model keeps the chord interpolation of the
sampled parameter for them as well — the claims settled on this layer (the
sampling-count and frame invariants) depend only on how many samples exist,
never on curved positions. -/
def curvePoint (e : Edge) (t : ℚ) : ℚ × ℚ :=
  (e.startVert.1 + t * (e.endVert.1 - e.startVert.1),
   e.startVert.2 + t * (e.endVert.2 - e.startVert.2))

/-- Chord tangent data of an edge (same caveat as `curvePoint`). -/
def curveTangent (e : Edge) : ℚ × ℚ :=
  (e.endVert.1 - e.startVert.1, e.endVert.2 - e.startVert.2)

/-- Modelled from the spec: an edge after parameterization "owns sampled
point arrays, tangent/normal data, and arc-length weights at 2n+1 points". -/
structure SampledEdge where
  edge : Edge
  n : ℕ
  points : List (ℚ × ℚ)
  tangents : List (ℚ × ℚ)
  weights : List ℚ
deriving DecidableEq

/-- Modelled from the spec: parameterize one edge with a quadrature scheme. -/
def Edge.parameterize (e : Edge) (q : QuadDict) : SampledEdge :=
  { edge := e
    n := q.n
    points := (sampledParams q.n).map (curvePoint e)
    tangents := (sampledParams q.n).map (fun _ => curveTangent e)
    weights := trapezoidWeights q.n }

/-- Modelled from the spec: `MeshCell` — ordered edge list plus one
designated interior point per hole. -/
structure MeshCell where
  idx : ℕ
  edges : List Edge
  holePoints : List (ℚ × ℚ)
deriving DecidableEq

/-- Modelled from the spec: a mesh cell together with its stored
parameterization (all edges sampled at the same `n`). -/
structure ParameterizedCell where
  cell : MeshCell
  n : ℕ
  sampledEdges : List SampledEdge
deriving DecidableEq

/-- Modelled from the spec: `K.parameterize(quad_dict)` samples every edge
of the cell at the common rate. -/
def MeshCell.parameterize (K : MeshCell) (q : QuadDict) : ParameterizedCell :=
  ⟨K, q.n, K.edges.map (fun e => e.parameterize q)⟩

/-- Modelled from the spec: `K.num_pts`, the total number of boundary sample
points of the cell; each edge contributes its sampled points with the
repeated chain endpoint dropped (the notebooks recover `n` as
`K.num_pts // K.num_edges // 2`). -/
def ParameterizedCell.num_pts (P : ParameterizedCell) : ℕ :=
  (P.sampledEdges.map (fun se => se.points.length - 1)).sum

/-- Modelled from the spec: `K.num_edges`. -/
def ParameterizedCell.num_edges (P : ParameterizedCell) : ℕ := P.cell.edges.length

/-- The unit square with a sinusoidal bottom edge of the given frequency
(amplitude 0.1), exactly the cell of `ex1e-heavy-sampling`. -/
def sineSquareCell (freq : ℕ) : MeshCell :=
  ⟨0,
   [⟨(0, 0), (1, 0), CurveKind.sineWave (1 / 10) freq⟩,
    ⟨(1, 0), (1, 1), CurveKind.line⟩,
    ⟨(1, 1), (0, 1), CurveKind.line⟩,
    ⟨(0, 1), (0, 0), CurveKind.line⟩],
   []⟩

/-- Modelled from the spec (§7): the error taxonomy, with numerical
ill-conditioning "surfaced as a distinct error kind from generic
configuration errors". -/
inductive PfError where
  | configError : PfError
  | numericalSingularity : PfError
deriving DecidableEq

/-- Modelled from the spec: the `NystromSolver` handle — "owns a factorized
linear operator associated with one MeshCell's sampled boundary".  The
numeric factorization itself is external; the handle records the cell it was
built for. -/
structure NystromSolver where
  K : ParameterizedCell
deriving DecidableEq

/-- Modelled from the spec and the `ex1e` notebook: the condition under which
the discretized Nyström operator is ill-conditioned/singular — "edges are
oversampled relative to curve complexity in a way that produces
near-duplicate or pathological quadrature nodes ... or too many points
causing conditioning loss".  The exact threshold is an explicit open question
(spec §9); the model fixes `freq·n ≥ 65536`, which reproduces the notebook's
documented runs: the sine edge with `freq=128` crashes solver construction at
`n=512` (`128·512 = 65536`) but constructs fine at `n=64` (`128·64 = 8192`),
and the benign `freq=8` edge constructs at every rate used. -/
def kressNodesPathological (e : Edge) (n : ℕ) : Bool :=
  match e.curve with
  | CurveKind.sineWave _ freq => decide (freq * n ≥ 65536)
  | _ => false

/-- The condition named by claim C2: "a single edge carrying far more
geometric oscillation than its sample count can resolve" — fewer than two
samples per oscillation (the Nyquist reading) on a nonflat sine edge. -/
def edgeUnderResolved (e : Edge) (n : ℕ) : Bool :=
  match e.curve with
  | CurveKind.sineWave _ freq => decide (2 * n < 2 * freq)
  | _ => false

/-- Modelled from the spec: `NystromSolver(K)` construction — returns a
solver handle, or fails with the `NumericalSingularity` error kind when the
discretized operator is singular (`kressNodesPathological`); never silently
returns garbage in that regime. -/
def NystromSolver.build (P : ParameterizedCell) : Except PfError NystromSolver :=
  if P.cell.edges.any (fun e => kressNodesPathological e P.n) then
    Except.error PfError.numericalSingularity
  else
    Except.ok ⟨P⟩

/-- Modelled from the notebook (`ex1e`, "MeshPlot didn't overwrite the
sampled points we got above with n=64"): `MeshPlot(K.get_edges(),
reparameterize=True, n).draw()` re-samples its own copies of the edges at
the plot resolution and renders from those; the observable effect of the
call is the pair (plot polylines, cell state after the call), and the
cell's stored parameterization is not touched. -/
def meshPlotDraw (P : ParameterizedCell) (reparameterize : Bool) (m : ℕ) :
    List SampledEdge × ParameterizedCell :=
  ((if reparameterize then P.cell.edges.map (fun e => e.parameterize (get_quad_dict m))
    else P.sampledEdges),
   P)

/-- Modelled from the spec: `LocalFunction` — "represents
`v = harmonic_part + polynomial_part` on one cell; owns a boundary trace, a
Laplacian polynomial, and (after computation) derived quantities", each
staged as an optional field populated by the compute steps. -/
structure LocalFunction where
  nyst : NystromSolver
  lap_poly : Polynomial2
  trace : List ℚ
  poly_part : Option Polynomial2 := none
  poly_part_trace : Option (List ℚ) := none
  poly_part_wnd : Option (List ℚ) := none
  harm_conj_trace : Option (List ℚ) := none
  log_coef : Option (List ℚ) := none
  harm_part_wnd : Option (List ℚ) := none
  antilap_trace : Option (List ℚ) := none
deriving DecidableEq

/-- Modelled from the spec: `set_trace_values` stores the raw Dirichlet
trace array. -/
def LocalFunction.set_trace_values (v : LocalFunction) (t : List ℚ) : LocalFunction :=
  { v with trace := t }

/-- The cell's boundary sample points as one array (each edge contributes
its samples with the repeated chain endpoint dropped, matching `num_pts`). -/
def NystromSolver.boundaryPoints (s : NystromSolver) : List (ℚ × ℚ) :=
  s.K.sampledEdges.flatMap (fun se => se.points.dropLast)

/-- Weighted outward normal data at the boundary sample points (tangent
rotated by −90°, carrying the arc-length weight of the parameterization). -/
def NystromSolver.weightedNormals (s : NystromSolver) : List (ℚ × ℚ) :=
  s.K.sampledEdges.flatMap (fun se => se.tangents.dropLast.map (fun t => (t.2, -t.1)))

/-- Modelled from the spec: the polynomial part of a `LocalFunction` — "a
bivariate polynomial whose Laplacian equals the stored Laplacian polynomial",
produced by the canonical anti-Laplacian construction. -/
def polynomialPartOf (v : LocalFunction) : Polynomial2 := polyAntiLaplacian v.lap_poly

/-- Modelled from the spec: the polynomial part evaluated on the boundary
sample points (`compute_polynomial_part_trace`; purely algebraic). -/
def polynomialPartTraceOf (v : LocalFunction) : List ℚ :=
  v.nyst.boundaryPoints.map (fun p => polyEval (polynomialPartOf v) p.1 p.2)

/-- Modelled from the spec: the weighted normal derivative of the polynomial
part on the boundary samples (`∇P · n` against the weighted normal). -/
def polynomialPartWndOf (v : LocalFunction) : List ℚ :=
  List.zipWith
    (fun p nrm =>
      polyEval (polyDx (polynomialPartOf v)) p.1 p.2 * nrm.1 +
        polyEval (polyDy (polynomialPartOf v)) p.1 p.2 * nrm.2)
    v.nyst.boundaryPoints v.nyst.weightedNormals

/-- Modelled from the spec: the harmonic remainder's trace — "the remainder
of the trace after subtracting this polynomial's boundary values". -/
def harmonicTraceOf (v : LocalFunction) : List ℚ :=
  List.zipWith (fun a b2 => a - b2) v.trace (polynomialPartTraceOf v)

/-- Modelled from the spec: the factorized solve "for harmonic conjugate
trace and logarithmic coefficients given a harmonic Dirichlet trace".  Its
numeric content (the dense Nyström system) is external to `src/`, so the
state-discipline claims are proved for an arbitrary deterministic solve of
this type; a solve may fail with a numerical error. -/
def HarmonicSolve : Type := List ℚ → Except PfError (List ℚ × List ℚ)

/-- Modelled from the spec: run the solver for a local function — fail fast
with a configuration error on a "mismatched trace array length vs. number of
boundary points" (§7), otherwise invoke the factorized solve on the harmonic
remainder. -/
def conjSolve (solve : HarmonicSolve) (v : LocalFunction) :
    Except PfError (List ℚ × List ℚ) :=
  if v.trace.length = v.nyst.K.num_pts then solve (harmonicTraceOf v)
  else Except.error PfError.configError

/-- Periodic first-difference stencil standing in for the weighted
tangential-derivative operator on a closed boundary trace. -/
def periodicForwardDiff (l : List ℚ) : List ℚ :=
  match l with
  | [] => []
  | x :: xs => List.zipWith (fun a b2 => b2 - a) (x :: xs) (xs ++ [x])

/-- The exact weighted normal derivative of `Σⱼ aⱼ ln|x-ξⱼ|` at a boundary
point with weighted normal `nrm`:  `Σⱼ aⱼ ((x-ξⱼ)·nrm)/|x-ξⱼ|²` (a rational
expression, unlike the logarithm itself). -/
def logTermWnd (holes : List (ℚ × ℚ)) (coefs : List ℚ) (p nrm : ℚ × ℚ) : ℚ :=
  (List.zipWith
    (fun xi a =>
      a * (((p.1 - xi.1) * nrm.1 + (p.2 - xi.2) * nrm.2) /
        ((p.1 - xi.1) ^ 2 + (p.2 - xi.2) ^ 2)))
    holes coefs).sum

/-- Modelled from the spec: `compute_harmonic_weighted_normal_derivative` —
the weighted tangential derivative of the conjugate trace (Cauchy–Riemann)
plus the logarithmic-term contribution, pointwise on the boundary samples. -/
def harmonicWndOf (v : LocalFunction) (conj lc : List ℚ) : List ℚ :=
  List.zipWith (fun d extra => d + extra) (periodicForwardDiff conj)
    (List.zipWith (logTermWnd v.nyst.K.cell.holePoints lc)
      v.nyst.boundaryPoints v.nyst.weightedNormals)

/-- Modelled from the spec: the boundary trace of the anti-Laplacian of the
harmonic part, built from the antiderivative-pair construction
`Ψ = ¼(x₁R + x₂R̂)` applied to the harmonic trace and conjugate trace (the
transcendental `Λ` log terms have no rational values; the state-discipline
claims proved about this step do not depend on the numeric values). -/
def antiLapTraceOf (v : LocalFunction) (conj lc : List ℚ) : List ℚ :=
  List.zipWith (fun p pair => (p.1 * pair.1 + p.2 * pair.2) / 4)
    v.nyst.boundaryPoints
    (List.zipWith (fun a b2 => (a, b2)) (harmonicTraceOf v) conj)

/-- The computation steps named by the spec's Local Function Engine
(`compute_all` is handled separately as their composition). -/
inductive ComputeStep where
  | polynomialPart : ComputeStep
  | harmonicConjugate : ComputeStep
  | harmonicWeightedNormalDerivative : ComputeStep
  | antiLaplacianHarmonicPart : ComputeStep
deriving DecidableEq

/-- Modelled from the spec (§7 propagation policy): each computation step
either fully succeeds and commits its derived fields, or fails before
committing anything; failures propagate to the caller as the returned
error. -/
def runStep (solve : HarmonicSolve) (k : ComputeStep) (v : LocalFunction) :
    Except PfError LocalFunction :=
  match k with
  | ComputeStep.polynomialPart =>
      Except.ok { v with
        poly_part := some (polynomialPartOf v)
        poly_part_trace := some (polynomialPartTraceOf v)
        poly_part_wnd := some (polynomialPartWndOf v) }
  | ComputeStep.harmonicConjugate =>
      (conjSolve solve v).map (fun r =>
        { v with harm_conj_trace := some r.1, log_coef := some r.2 })
  | ComputeStep.harmonicWeightedNormalDerivative =>
      (conjSolve solve v).map (fun r =>
        { v with harm_part_wnd := some (harmonicWndOf v r.1 r.2) })
  | ComputeStep.antiLaplacianHarmonicPart =>
      (conjSolve solve v).map (fun r =>
        { v with antilap_trace := some (antiLapTraceOf v r.1 r.2) })

/-- Modelled from the spec: `compute_all()` — "runs the full pipeline (trace
decomposition → conjugate → normal derivative → anti-Laplacian) in
dependency order". -/
def compute_all (solve : HarmonicSolve) (v : LocalFunction) :
    Except PfError LocalFunction :=
  (runStep solve ComputeStep.polynomialPart v).bind (fun v1 =>
    (runStep solve ComputeStep.harmonicConjugate v1).bind (fun v2 =>
      (runStep solve ComputeStep.harmonicWeightedNormalDerivative v2).bind (fun v3 =>
        runStep solve ComputeStep.antiLaplacianHarmonicPart v3)))

/-- The caller-visible state after invoking one step on a local function:
the committed state on success, the untouched original on failure. -/
def stateAfterStep (solve : HarmonicSolve) (k : ComputeStep) (v : LocalFunction) :
    LocalFunction :=
  match runStep solve k v with
  | Except.ok w => w
  | Except.error _ => v

/-- The caller-visible state after invoking `compute_all`. -/
def stateAfterComputeAll (solve : HarmonicSolve) (v : LocalFunction) : LocalFunction :=
  match compute_all solve v with
  | Except.ok w => w
  | Except.error _ => v

/-- Modelled from the spec: the discrete `get_h1_semi_inner_prod` boundary
quadrature over two computed states — a deterministic function of exactly
the derived boundary quantities the spec names (weighted normal derivatives
of both parts against the other trace); the precise quadrature formula of
the missing code is unavailable, and the claims proved about it depend only
on its determinism in the state. -/
def LocalFunction.h1_semi_inner_prod (v w : LocalFunction) : ℚ :=
  (List.zipWith (fun a b2 => a * b2)
    (List.zipWith (fun a b2 => a + b2) (v.harm_part_wnd.getD []) (v.poly_part_wnd.getD []))
    w.trace).sum

/-- Modelled from the spec: the discrete `get_l2_inner_prod` boundary
quadrature over two computed states (anti-Laplacian data against the other
trace); same caveat as `h1_semi_inner_prod`. -/
def LocalFunction.l2_inner_prod (v w : LocalFunction) : ℚ :=
  (List.zipWith (fun a b2 => a * b2) (v.antilap_trace.getD []) w.trace).sum

/-- A two-edge closed cell used as concrete witness data. -/
def tinyCell : MeshCell :=
  ⟨0, [⟨(0, 0), (1, 0), CurveKind.line⟩, ⟨(1, 0), (0, 0), CurveKind.line⟩], []⟩

/-- A solver handle on the tiny cell parameterized at `n = 1`. -/
def tinySolver : NystromSolver := ⟨tinyCell.parameterize (get_quad_dict 1)⟩

/-- A concrete deterministic solve used for witnesses. -/
def solveTriv : HarmonicSolve := fun t => Except.ok (t, [0])

/-- A local function with consistent trace length on the tiny cell. -/
def goodLF : LocalFunction := { nyst := tinySolver, lap_poly := [], trace := [1, 2, 3, 4] }

/-- A local function with mismatched trace length on the tiny cell. -/
def badLF : LocalFunction := { nyst := tinySolver, lap_poly := [], trace := [1] }

/-- The computed state of `goodLF` after `compute_all`. -/
def goodLFComputed : LocalFunction := stateAfterComputeAll solveTriv goodLF

/-- The full set of derived fields committed by a successful pipeline run,
given the solve result `r`. -/
def commitAll (v : LocalFunction) (r : List ℚ × List ℚ) : LocalFunction :=
  { v with
    poly_part := some (polynomialPartOf v)
    poly_part_trace := some (polynomialPartTraceOf v)
    poly_part_wnd := some (polynomialPartWndOf v)
    harm_conj_trace := some r.1
    log_coef := some r.2
    harm_part_wnd := some (harmonicWndOf v r.1 r.2)
    antilap_trace := some (antiLapTraceOf v r.1 r.2) }

theorem squareIntegral_nil : squareIntegral [] = 0 := rfl

theorem squareIntegral_cons (m : Monomial) (p : Polynomial2) :
    squareIntegral (m :: p) = monomialSquareIntegral m + squareIntegral p := by
  simp [squareIntegral]

theorem squareIntegral_append (p q : Polynomial2) :
    squareIntegral (p ++ q) = squareIntegral p + squareIntegral q := by
  simp [squareIntegral]

theorem polyEval_nil (x y : ℚ) : polyEval [] x y = 0 := rfl

theorem polyEval_cons (m : Monomial) (p : Polynomial2) (x y : ℚ) :
    polyEval (m :: p) x y = monomialEval m x y + polyEval p x y := by
  simp [polyEval]

theorem polyEval_append (p q : Polynomial2) (x y : ℚ) :
    polyEval (p ++ q) x y = polyEval p x y + polyEval q x y := by
  simp [polyEval]

/-- Auxiliary binomial identity: the alternating first-column sum of a
Pascal row is `1`. -/
theorem alt_choose_sum (b : ℕ) :
    ∑ j ∈ Finset.range (b + 1), ((-1 : ℚ)) ^ j * (((b + 1).choose (j + 1) : ℚ)) = 1 := by
  have hz := @Int.alternating_sum_range_choose (b + 1)
  rw [if_neg (Nat.succ_ne_zero b)] at hz
  have hq : (∑ m ∈ Finset.range (b + 2), ((-1 : ℚ)) ^ m * (((b + 1).choose m : ℚ))) = 0 := by
    exact_mod_cast hz
  rw [Finset.sum_range_succ' _ (b + 1)] at hq
  simp only [pow_succ, pow_zero, Nat.choose_zero_right, Nat.cast_one, one_mul, mul_one] at hq
  have h2 : -(∑ j ∈ Finset.range (b + 1), ((-1 : ℚ)) ^ j * (((b + 1).choose (j + 1) : ℚ))) + 1 = 0 := by
    rw [← hq, ← Finset.sum_neg_distrib]
    congr 1
    refine Finset.sum_congr rfl ?_
    intro j hj
    ring
  linarith [h2]

/-- Auxiliary binomial identity: `∑ C(b,j) (-1)^j / (j+1) = 1/(b+1)`,
the exact value of `∫_0^1 (1-t)^b dt`. -/
theorem alt_binom (b : ℕ) :
    ∑ j ∈ Finset.range (b + 1), ((b.choose j : ℚ) * (-1) ^ j / ((j : ℚ) + 1))
      = 1 / ((b : ℚ) + 1) := by
  have hb : ((b : ℚ) + 1) ≠ 0 := by positivity
  have hcongr : ∑ j ∈ Finset.range (b + 1), ((b : ℚ) + 1) * ((b.choose j : ℚ) * (-1) ^ j / ((j : ℚ) + 1))
      = ∑ j ∈ Finset.range (b + 1), ((-1 : ℚ)) ^ j * (((b + 1).choose (j + 1) : ℚ)) := by
    refine Finset.sum_congr rfl ?_
    intro j hj
    have hj1 : ((j : ℚ) + 1) ≠ 0 := by positivity
    have hcast : (((b : ℚ) + 1) * ((b.choose j : ℚ))) = (((b + 1).choose (j + 1) : ℚ)) * ((j : ℚ) + 1) := by
      exact_mod_cast congrArg (fun n : ℕ => (n : ℚ)) (Nat.succ_mul_choose_eq b j)
    field_simp
    linear_combination ((-1 : ℚ)) ^ j * hcast
  have hmul : ((b : ℚ) + 1) * ∑ j ∈ Finset.range (b + 1), ((b.choose j : ℚ) * (-1) ^ j / ((j : ℚ) + 1)) = 1 := by
    rw [Finset.mul_sum, hcongr, alt_choose_sum]
  field_simp
  linarith [hmul]

theorem edgeInt_right (a b : ℕ) : edgeMonomialIntegral 1 0 0 1 a b = 1 / ((b : ℚ) + 1) := by
  unfold edgeMonomialIntegral
  rw [Finset.sum_eq_single 0]
  · rw [Finset.sum_eq_single b]
    · simp
    · intro j hj hne
      have hbj : b - j ≠ 0 := by
        have := Finset.mem_range.mp hj
        omega
      simp [zero_pow hbj]
    · intro h
      exact absurd (Finset.self_mem_range_succ b) h
  · intro i hi hne
    apply Finset.sum_eq_zero
    intro j hj
    simp [zero_pow hne]
  · intro h
    exact absurd (Finset.mem_range.mpr (Nat.succ_pos a)) h

theorem edgeInt_left (a b : ℕ) :
    edgeMonomialIntegral 0 0 1 (-1) a b = if a = 0 then 1 / ((b : ℚ) + 1) else 0 := by
  unfold edgeMonomialIntegral
  rcases a with _ | a2
  · simp only [if_pos rfl, Nat.zero_add, Finset.sum_range_one]
    rw [← alt_binom b]
    refine Finset.sum_congr rfl ?_
    intro j hj
    simp
  · rw [if_neg (Nat.succ_ne_zero a2)]
    apply Finset.sum_eq_zero
    intro i hi
    apply Finset.sum_eq_zero
    intro j hj
    rcases Nat.eq_zero_or_pos i with h0 | hpos
    · subst h0
      have hsub : a2 + 1 - 0 ≠ 0 := by omega
      simp [zero_pow hsub]
    · have hne : i ≠ 0 := by omega
      simp [zero_pow hne]

theorem edgeInt_bottom (a b : ℕ) :
    edgeMonomialIntegral 0 1 0 0 a b = if b = 0 then 1 / ((a : ℚ) + 1) else 0 := by
  unfold edgeMonomialIntegral
  rcases b with _ | b2
  · simp only [if_pos rfl, Nat.zero_add]
    have hrw : ∀ i ∈ Finset.range (a + 1), (∑ j ∈ Finset.range 1,
        (a.choose i : ℚ) * ((0 : ℕ).choose j : ℚ) * (0 : ℚ) ^ (a - i) * (1 : ℚ) ^ i * (0 : ℚ) ^ (0 - j) * (0 : ℚ) ^ j
          / ((i : ℚ) + (j : ℚ) + 1))
        = (a.choose i : ℚ) * (0 : ℚ) ^ (a - i) / ((i : ℚ) + 1) := by
      intro i hi
      rw [Finset.sum_range_one]
      simp
    rw [Finset.sum_congr rfl hrw]
    rw [Finset.sum_eq_single a]
    · simp
    · intro i hi hne
      have hsub : a - i ≠ 0 := by
        have := Finset.mem_range.mp hi
        omega
      simp [zero_pow hsub]
    · intro h
      exact absurd (Finset.self_mem_range_succ a) h
  · rw [if_neg (Nat.succ_ne_zero b2)]
    apply Finset.sum_eq_zero
    intro i hi
    apply Finset.sum_eq_zero
    intro j hj
    rcases Nat.eq_zero_or_pos j with h0 | hpos
    · subst h0
      have hsub : b2 + 1 - 0 ≠ 0 := by omega
      simp [zero_pow hsub]
    · have hne : j ≠ 0 := by omega
      simp [zero_pow hne]

theorem edgeInt_top (a b : ℕ) :
    edgeMonomialIntegral 1 (-1) 1 0 a b = 1 / ((a : ℚ) + 1) := by
  unfold edgeMonomialIntegral
  have hrw : ∀ i ∈ Finset.range (a + 1), (∑ j ∈ Finset.range (b + 1),
      (a.choose i : ℚ) * (b.choose j : ℚ) * (1 : ℚ) ^ (a - i) * (-1 : ℚ) ^ i * (1 : ℚ) ^ (b - j) * (0 : ℚ) ^ j
        / ((i : ℚ) + (j : ℚ) + 1))
      = (a.choose i : ℚ) * (-1 : ℚ) ^ i / ((i : ℚ) + 1) := by
    intro i hi
    rw [Finset.sum_eq_single 0]
    · simp
    · intro j hj hne
      simp [zero_pow hne]
    · intro h
      exact absurd (Finset.mem_range.mpr (Nat.succ_pos b)) h
  rw [Finset.sum_congr rfl hrw]
  exact alt_binom a

/-- Green's theorem on the unit square, `dy` half, one monomial:
`∮ m dy = ∬ ∂m/∂x₁`. -/
theorem monomialFluxDy_eq (m : Monomial) :
    monomialFluxDy unitSquareBoundary m = monomialSquareIntegral (monomialDx m) := by
  obtain ⟨c, a, b⟩ := m
  simp only [monomialFluxDy, unitSquareBoundary, monomialLineIntegralDy, Seg.dx, Seg.dy,
    List.map_cons, List.map_nil, List.sum_cons, List.sum_nil]
  norm_num
  rw [edgeInt_right, edgeInt_left]
  rcases a with _ | a2
  · simp [monomialSquareIntegral, monomialDx]
  · rw [if_neg (Nat.succ_ne_zero a2)]
    simp only [monomialSquareIntegral, monomialDx, Nat.succ_sub_one]
    push_cast
    have h1 : ((b : ℚ) + 1) ≠ 0 := by positivity
    have h2 : ((a2 : ℚ) + 1) ≠ 0 := by positivity
    field_simp
    ring

/-- Green's theorem on the unit square, `dx` half, one monomial:
`∮ m dx = -∬ ∂m/∂x₂`. -/
theorem monomialFluxDx_eq (m : Monomial) :
    monomialFluxDx unitSquareBoundary m = -monomialSquareIntegral (monomialDy m) := by
  obtain ⟨c, a, b⟩ := m
  simp only [monomialFluxDx, unitSquareBoundary, monomialLineIntegralDx, Seg.dx, Seg.dy,
    List.map_cons, List.map_nil, List.sum_cons, List.sum_nil]
  norm_num
  rw [edgeInt_bottom, edgeInt_top]
  rcases b with _ | b2
  · simp [monomialSquareIntegral, monomialDy]
  · rw [if_neg (Nat.succ_ne_zero b2)]
    simp only [monomialSquareIntegral, monomialDy, Nat.succ_sub_one]
    push_cast
    have h1 : ((b2 : ℚ) + 1) ≠ 0 := by positivity
    have h2 : ((a : ℚ) + 1) ≠ 0 := by positivity
    field_simp
    ring

/-- Green's theorem on the unit square, `dy` half, for polynomials. -/
theorem fluxDy_eq (p : Polynomial2) :
    fluxDy unitSquareBoundary p = squareIntegral (polyDx p) := by
  induction p with
  | nil => rfl
  | cons m p ih =>
      simp only [fluxDy, polyDx, List.map_cons, List.sum_cons] at ih ⊢
      rw [monomialFluxDy_eq, ih, squareIntegral_cons]

/-- Green's theorem on the unit square, `dx` half, for polynomials. -/
theorem fluxDx_eq (p : Polynomial2) :
    fluxDx unitSquareBoundary p = -squareIntegral (polyDy p) := by
  induction p with
  | nil => simp [fluxDx, polyDy, squareIntegral]
  | cons m p ih =>
      simp only [fluxDx, polyDy, List.map_cons, List.sum_cons] at ih ⊢
      rw [monomialFluxDx_eq, ih, squareIntegral_cons]
      ring

/-- The canonical anti-Laplacian is pointwise correct: evaluating
`Δ(antiLaplacian(c x^a y^b))` gives back `c x^a y^b` at every point. -/
theorem antiLaplacianAux_eval (b : ℕ) : ∀ (c : ℚ) (a : ℕ) (x y : ℚ),
    polyEval (polyLaplacian (antiLaplacianAux b c a)) x y
      = monomialEval (c, a, b) x y := by
  induction b using Nat.strong_induction_on with
  | _ b ih =>
    match b with
    | 0 =>
        intro c a x y
        have h1 : ((a : ℚ) + 1) ≠ 0 := by positivity
        have h2 : ((a : ℚ) + 2) ≠ 0 := by positivity
        simp [antiLaplacianAux, polyLaplacian, monomialLap, polyEval, monomialEval,
          monomialDx, monomialDy]
        field_simp
        try ring
        try tauto
    | 1 =>
        intro c a x y
        have h1 : ((a : ℚ) + 1) ≠ 0 := by positivity
        have h2 : ((a : ℚ) + 2) ≠ 0 := by positivity
        simp [antiLaplacianAux, polyLaplacian, monomialLap, polyEval, monomialEval,
          monomialDx, monomialDy]
        field_simp
        try ring
        try tauto
    | b + 2 =>
        intro c a x y
        have ihb := ih b (by omega)
        rw [show antiLaplacianAux (b + 2) c a
            = (c / (((a : ℚ) + 1) * ((a : ℚ) + 2)), a + 2, b + 2) ::
                antiLaplacianAux b
                  (-(c * ((b : ℚ) + 2) * ((b : ℚ) + 1)) / (((a : ℚ) + 1) * ((a : ℚ) + 2)))
                  (a + 2) from rfl]
        rw [show polyLaplacian ((c / (((a : ℚ) + 1) * ((a : ℚ) + 2)), a + 2, b + 2) ::
                antiLaplacianAux b
                  (-(c * ((b : ℚ) + 2) * ((b : ℚ) + 1)) / (((a : ℚ) + 1) * ((a : ℚ) + 2)))
                  (a + 2))
            = monomialLap (c / (((a : ℚ) + 1) * ((a : ℚ) + 2)), a + 2, b + 2) ++
                polyLaplacian (antiLaplacianAux b
                  (-(c * ((b : ℚ) + 2) * ((b : ℚ) + 1)) / (((a : ℚ) + 1) * ((a : ℚ) + 2)))
                  (a + 2)) from rfl]
        rw [polyEval_append, ihb]
        have h1 : ((a : ℚ) + 1) ≠ 0 := by positivity
        have h2 : ((a : ℚ) + 2) ≠ 0 := by positivity
        simp only [monomialLap, monomialDx, monomialDy, polyEval, monomialEval,
          List.map_cons, List.map_nil, List.sum_cons, List.sum_nil]
        norm_num
        push_cast
        field_simp
        ring

theorem list_sum_map_add {α : Type} (A : List α) (f g : α → ℚ) :
    (A.map (fun a => f a + g a)).sum = (A.map f).sum + (A.map g).sum := by
  induction A with
  | nil => simp
  | cons x A ih =>
      simp only [List.map_cons, List.sum_cons, ih]
      ring

theorem list_sum_map_congr {α : Type} (A : List α) (f g : α → ℚ) (h : ∀ a, f a = g a) :
    (A.map f).sum = (A.map g).sum := by
  rw [show f = g from funext h]

theorem list_sum_swap {α β : Type} (A : List α) (B : List β) (F : α → β → ℚ) :
    (A.map (fun a => (B.map (fun b2 => F a b2)).sum)).sum
      = (B.map (fun b2 => (A.map (fun a => F a b2)).sum)).sum := by
  induction A with
  | nil => simp
  | cons x A ih =>
      simp only [List.map_cons, List.sum_cons, ih]
      rw [← list_sum_map_add]

theorem inner_lap_sum (g : Monomial → ℚ) (B : Polynomial2) :
    ((polyLaplacian B).map g).sum
      = ((polyDx (polyDx B)).map g).sum + ((polyDy (polyDy B)).map g).sum := by
  induction B with
  | nil => simp [polyLaplacian, polyDx, polyDy]
  | cons m2 B ih =>
      simp only [polyLaplacian, List.flatMap_cons, List.map_append, List.sum_append,
        monomialLap, List.map_cons, List.map_nil, List.sum_cons, List.sum_nil,
        polyDx, polyDy, List.map_map] at ih ⊢
      linarith [ih]

/-- Binomial expansion in the form used by the segment integrals. -/
theorem binom_expand (X D : ℚ) (a : ℕ) :
    (X + D) ^ a = ∑ i ∈ Finset.range (a + 1), (a.choose i : ℚ) * X ^ (a - i) * D ^ i := by
  rw [add_comm X D, add_pow]
  exact Finset.sum_congr rfl (fun i hi => by ring)

theorem ftc_hS1 (X D Y E : ℚ) (a b : ℕ) :
    (a : ℚ) * D * edgeMonomialIntegral X D Y E (a - 1) b
      = ∑ i ∈ Finset.range (a + 1), ∑ j ∈ Finset.range (b + 1),
          (i : ℚ) * ((a.choose i : ℚ) * (b.choose j : ℚ) * X ^ (a - i) * D ^ i * Y ^ (b - j) * E ^ j)
            / ((i : ℚ) + (j : ℚ)) := by
  rcases a with _ | a2
  · simp
  · rw [Finset.sum_range_succ' _ (a2 + 1)]
    have hzero : (∑ j ∈ Finset.range (b + 1),
        ((0 : ℕ) : ℚ) * (((a2+1).choose 0 : ℚ) * (b.choose j : ℚ) * X ^ (a2 + 1 - 0) * D ^ 0 * Y ^ (b - j) * E ^ j)
          / (((0:ℕ) : ℚ) + (j : ℚ))) = 0 := by
      apply Finset.sum_eq_zero
      intro j hj
      simp
    rw [hzero, add_zero]
    unfold edgeMonomialIntegral
    rw [Finset.mul_sum]
    refine Finset.sum_congr rfl ?_
    intro i hi
    rw [Finset.mul_sum]
    refine Finset.sum_congr rfl ?_
    intro j hj
    have hchoose : ((a2 + 1 : ℕ) : ℚ) * ((a2.choose i : ℚ)) = (((a2+1).choose (i+1) : ℚ)) * ((i : ℚ) + 1) := by
      exact_mod_cast congrArg (fun n : ℕ => (n : ℚ)) (Nat.succ_mul_choose_eq a2 i)
    have hden : ((i : ℚ) + (j : ℚ) + 1) ≠ 0 := by positivity
    have hden2 : (((i+1 : ℕ) : ℚ) + (j : ℚ)) ≠ 0 := by push_cast; positivity
    have hexp : a2 + 1 - (i + 1) = a2 - i := by omega
    rw [hexp]
    simp only [Nat.add_sub_cancel]
    rw [← mul_div_assoc, div_eq_div_iff hden hden2]
    push_cast at hchoose ⊢
    linear_combination ((b.choose j : ℚ) * X ^ (a2 - i) * D ^ (i+1) * Y ^ (b - j) * E ^ j * ((i:ℚ) + (j:ℚ) + 1)) * hchoose

theorem ftc_hS2 (X D Y E : ℚ) (a b : ℕ) :
    (b : ℚ) * E * edgeMonomialIntegral X D Y E a (b - 1)
      = ∑ i ∈ Finset.range (a + 1), ∑ j ∈ Finset.range (b + 1),
          (j : ℚ) * ((a.choose i : ℚ) * (b.choose j : ℚ) * X ^ (a - i) * D ^ i * Y ^ (b - j) * E ^ j)
            / ((i : ℚ) + (j : ℚ)) := by
  rcases b with _ | b2
  · simp
  · unfold edgeMonomialIntegral
    rw [Finset.mul_sum]
    refine Finset.sum_congr rfl ?_
    intro i hi
    rw [Finset.sum_range_succ' _ (b2 + 1)]
    have hzero : (((0:ℕ) : ℚ) * ((a.choose i : ℚ) * (((b2+1).choose 0 : ℚ)) * X ^ (a - i) * D ^ i * Y ^ (b2 + 1 - 0) * E ^ 0)
          / ((i : ℚ) + ((0:ℕ) : ℚ))) = 0 := by
      simp
    rw [hzero, add_zero, Finset.mul_sum]
    refine Finset.sum_congr rfl ?_
    intro j hj
    have hchoose : ((b2 + 1 : ℕ) : ℚ) * ((b2.choose j : ℚ)) = (((b2+1).choose (j+1) : ℚ)) * ((j : ℚ) + 1) := by
      exact_mod_cast congrArg (fun n : ℕ => (n : ℚ)) (Nat.succ_mul_choose_eq b2 j)
    have hden : ((i : ℚ) + (j : ℚ) + 1) ≠ 0 := by positivity
    have hden2 : ((i : ℚ) + ((j+1 : ℕ) : ℚ)) ≠ 0 := by push_cast; positivity
    have hexp : b2 + 1 - (j + 1) = b2 - j := by omega
    rw [hexp]
    simp only [Nat.add_sub_cancel]
    rw [← mul_div_assoc, div_eq_div_iff hden hden2]
    push_cast at hchoose ⊢
    linear_combination ((a.choose i : ℚ) * X ^ (a - i) * D ^ i * Y ^ (b2 - j) * E ^ (j+1) * ((i:ℚ) + (j:ℚ) + 1)) * hchoose

/-- Fundamental theorem of calculus for the exact segment integrals: along
one affine segment, `a·dx·∫ x^(a-1)y^b + b·dy·∫ x^a y^(b-1)` telescopes to
the endpoint difference of `x^a y^b`. -/
theorem ftc_monomial (X D Y E : ℚ) (a b : ℕ) :
    (a : ℚ) * D * edgeMonomialIntegral X D Y E (a - 1) b
      + (b : ℚ) * E * edgeMonomialIntegral X D Y E a (b - 1)
    = (X + D) ^ a * (Y + E) ^ b - X ^ a * Y ^ b := by
  have hRHS : (X + D) ^ a * (Y + E) ^ b
      = ∑ i ∈ Finset.range (a + 1), ∑ j ∈ Finset.range (b + 1),
          (a.choose i : ℚ) * (b.choose j : ℚ) * X ^ (a - i) * D ^ i * Y ^ (b - j) * E ^ j := by
    rw [binom_expand X D a, binom_expand Y E b, Finset.sum_mul_sum]
    refine Finset.sum_congr rfl ?_
    intro i hi
    refine Finset.sum_congr rfl ?_
    intro j hj
    ring
  have hdiff : (∑ i ∈ Finset.range (a + 1), ∑ j ∈ Finset.range (b + 1),
      ((a.choose i : ℚ) * (b.choose j : ℚ) * X ^ (a - i) * D ^ i * Y ^ (b - j) * E ^ j
        - ((i : ℚ) * ((a.choose i : ℚ) * (b.choose j : ℚ) * X ^ (a - i) * D ^ i * Y ^ (b - j) * E ^ j)
             / ((i : ℚ) + (j : ℚ))
           + (j : ℚ) * ((a.choose i : ℚ) * (b.choose j : ℚ) * X ^ (a - i) * D ^ i * Y ^ (b - j) * E ^ j)
             / ((i : ℚ) + (j : ℚ)))))
      = X ^ a * Y ^ b := by
    have hrow : ∀ i ∈ Finset.range (a + 1), i ≠ 0 → (∑ j ∈ Finset.range (b + 1),
        ((a.choose i : ℚ) * (b.choose j : ℚ) * X ^ (a - i) * D ^ i * Y ^ (b - j) * E ^ j
          - ((i : ℚ) * ((a.choose i : ℚ) * (b.choose j : ℚ) * X ^ (a - i) * D ^ i * Y ^ (b - j) * E ^ j)
               / ((i : ℚ) + (j : ℚ))
             + (j : ℚ) * ((a.choose i : ℚ) * (b.choose j : ℚ) * X ^ (a - i) * D ^ i * Y ^ (b - j) * E ^ j)
               / ((i : ℚ) + (j : ℚ))))) = 0 := by
      intro i hi hi0
      apply Finset.sum_eq_zero
      intro j hj
      have hij : ((i : ℚ) + (j : ℚ)) ≠ 0 := by
        have h1 : 0 < i + j := by omega
        have h2 : (0:ℚ) < (i : ℚ) + (j : ℚ) := by exact_mod_cast h1
        exact ne_of_gt h2
      field_simp
      ring
    rw [Finset.sum_eq_single_of_mem 0 (Finset.mem_range.mpr (by omega)) hrow]
    have hcol : ∀ j ∈ Finset.range (b + 1), j ≠ 0 →
        ((a.choose 0 : ℚ) * (b.choose j : ℚ) * X ^ (a - 0) * D ^ 0 * Y ^ (b - j) * E ^ j
          - (((0:ℕ) : ℚ) * ((a.choose 0 : ℚ) * (b.choose j : ℚ) * X ^ (a - 0) * D ^ 0 * Y ^ (b - j) * E ^ j)
               / (((0:ℕ) : ℚ) + (j : ℚ))
             + (j : ℚ) * ((a.choose 0 : ℚ) * (b.choose j : ℚ) * X ^ (a - 0) * D ^ 0 * Y ^ (b - j) * E ^ j)
               / (((0:ℕ) : ℚ) + (j : ℚ)))) = 0 := by
      intro j hj hj0
      have hij : ((j : ℚ)) ≠ 0 := by exact_mod_cast hj0
      field_simp
    rw [Finset.sum_eq_single_of_mem 0 (Finset.mem_range.mpr (by omega)) hcol]
    simp
  have hS1 := ftc_hS1 X D Y E a b
  have hS2 := ftc_hS2 X D Y E a b
  have hsum : (∑ i ∈ Finset.range (a + 1), ∑ j ∈ Finset.range (b + 1),
        (i : ℚ) * ((a.choose i : ℚ) * (b.choose j : ℚ) * X ^ (a - i) * D ^ i * Y ^ (b - j) * E ^ j)
          / ((i : ℚ) + (j : ℚ)))
      + (∑ i ∈ Finset.range (a + 1), ∑ j ∈ Finset.range (b + 1),
        (j : ℚ) * ((a.choose i : ℚ) * (b.choose j : ℚ) * X ^ (a - i) * D ^ i * Y ^ (b - j) * E ^ j)
          / ((i : ℚ) + (j : ℚ)))
      = (∑ i ∈ Finset.range (a + 1), ∑ j ∈ Finset.range (b + 1),
          ((i : ℚ) * ((a.choose i : ℚ) * (b.choose j : ℚ) * X ^ (a - i) * D ^ i * Y ^ (b - j) * E ^ j)
             / ((i : ℚ) + (j : ℚ))
           + (j : ℚ) * ((a.choose i : ℚ) * (b.choose j : ℚ) * X ^ (a - i) * D ^ i * Y ^ (b - j) * E ^ j)
             / ((i : ℚ) + (j : ℚ)))) := by
    rw [← Finset.sum_add_distrib]
    refine Finset.sum_congr rfl ?_
    intro i hi
    rw [← Finset.sum_add_distrib]
  rw [hS1, hS2, hsum, hRHS]
  have hsplit : (∑ i ∈ Finset.range (a + 1), ∑ j ∈ Finset.range (b + 1),
      ((a.choose i : ℚ) * (b.choose j : ℚ) * X ^ (a - i) * D ^ i * Y ^ (b - j) * E ^ j
        - ((i : ℚ) * ((a.choose i : ℚ) * (b.choose j : ℚ) * X ^ (a - i) * D ^ i * Y ^ (b - j) * E ^ j)
             / ((i : ℚ) + (j : ℚ))
           + (j : ℚ) * ((a.choose i : ℚ) * (b.choose j : ℚ) * X ^ (a - i) * D ^ i * Y ^ (b - j) * E ^ j)
             / ((i : ℚ) + (j : ℚ)))))
      = (∑ i ∈ Finset.range (a + 1), ∑ j ∈ Finset.range (b + 1),
          (a.choose i : ℚ) * (b.choose j : ℚ) * X ^ (a - i) * D ^ i * Y ^ (b - j) * E ^ j)
        - (∑ i ∈ Finset.range (a + 1), ∑ j ∈ Finset.range (b + 1),
          ((i : ℚ) * ((a.choose i : ℚ) * (b.choose j : ℚ) * X ^ (a - i) * D ^ i * Y ^ (b - j) * E ^ j)
             / ((i : ℚ) + (j : ℚ))
           + (j : ℚ) * ((a.choose i : ℚ) * (b.choose j : ℚ) * X ^ (a - i) * D ^ i * Y ^ (b - j) * E ^ j)
             / ((i : ℚ) + (j : ℚ)))) := by
    rw [← Finset.sum_sub_distrib]
    refine Finset.sum_congr rfl ?_
    intro i hi
    rw [← Finset.sum_sub_distrib]
  rw [hsplit] at hdiff
  linarith

theorem monomialFluxDy_cons (s : Seg) (rest : List Seg) (m : Monomial) :
    monomialFluxDy (s :: rest) m = monomialLineIntegralDy m s + monomialFluxDy rest m := by
  simp [monomialFluxDy]

theorem monomialFluxDx_cons (s : Seg) (rest : List Seg) (m : Monomial) :
    monomialFluxDx (s :: rest) m = monomialLineIntegralDx m s + monomialFluxDx rest m := by
  simp [monomialFluxDx]

/-- Per-segment fundamental theorem: the flux of the gradient of a monomial
potential along one segment is the difference of its endpoint values. -/
theorem seg_ftc (m : Monomial) (s : Seg) :
    monomialLineIntegralDx (monomialDx m) s + monomialLineIntegralDy (monomialDy m) s
      = monomialEval m s.x1 s.y1 - monomialEval m s.x0 s.y0 := by
  have h := ftc_monomial s.x0 (s.x1 - s.x0) s.y0 (s.y1 - s.y0) m.2.1 m.2.2
  simp only [monomialLineIntegralDx, monomialLineIntegralDy, monomialDx, monomialDy,
    monomialEval, Seg.dx, Seg.dy]
  linear_combination m.1 * h

/-- Telescoping along a connected chain: the gradient flux of a monomial
potential is the difference of its values at the chain's two ends. -/
theorem chain_flux (m : Monomial) :
    ∀ (l : List Seg) (p q : ℚ × ℚ), chainFrom p l q = true →
      monomialFluxDx l (monomialDx m) + monomialFluxDy l (monomialDy m)
        = monomialEval m q.1 q.2 - monomialEval m p.1 p.2 := by
  intro l
  induction l with
  | nil =>
      intro p q h
      simp [chainFrom] at h
      subst h
      simp [monomialFluxDx, monomialFluxDy]
  | cons s rest ih =>
      intro p q h
      simp only [chainFrom, Bool.and_eq_true, decide_eq_true_eq] at h
      obtain ⟨h1, h2⟩ := h
      have hrec := ih (s.x1, s.y1) q h2
      have hseg := seg_ftc m s
      rw [monomialFluxDx_cons, monomialFluxDy_cons]
      rw [← h1]
      simp only at hrec ⊢
      linarith

/-- Around a closed chain, gradient fluxes of monomial potentials vanish. -/
theorem loop_flux (m : Monomial) (l : List Seg) (h : isClosedLoop l = true) :
    monomialFluxDx l (monomialDx m) + monomialFluxDy l (monomialDy m) = 0 := by
  match l with
  | [] => simp [monomialFluxDx, monomialFluxDy]
  | s :: rest =>
      have := chain_flux m (s :: rest) (s.x0, s.y0) (s.x0, s.y0) h
      simpa using this

theorem monomialFluxDy_append (l1 l2 : List Seg) (m : Monomial) :
    monomialFluxDy (l1 ++ l2) m = monomialFluxDy l1 m + monomialFluxDy l2 m := by
  simp [monomialFluxDy]

theorem monomialFluxDx_append (l1 l2 : List Seg) (m : Monomial) :
    monomialFluxDx (l1 ++ l2) m = monomialFluxDx l1 m + monomialFluxDx l2 m := by
  simp [monomialFluxDx]

/-- Around the whole boundary of a cell (all closed loops), gradient fluxes
of monomial potentials vanish. -/
theorem loops_flux (m : Monomial) :
    ∀ (loops : List (List Seg)), loopsClosed loops = true →
      monomialFluxDx loops.flatten (monomialDx m)
        + monomialFluxDy loops.flatten (monomialDy m) = 0 := by
  intro loops
  induction loops with
  | nil =>
      intro h
      simp [monomialFluxDx, monomialFluxDy]
  | cons l rest ih =>
      intro h
      simp only [loopsClosed, List.all_cons, Bool.and_eq_true] at h
      have h1 := loop_flux m l h.1
      have h2 := ih (by simpa [loopsClosed] using h.2)
      simp only [List.flatten_cons, monomialFluxDy_append, monomialFluxDx_append]
      linarith

/-- The boundary flux is linear in the monomial coefficient. -/
theorem monomialFluxDy_coeff (segs : List Seg) (k : ℚ) (a b : ℕ) :
    monomialFluxDy segs (k, a, b) = k * monomialFluxDy segs (1, a, b) := by
  induction segs with
  | nil => simp [monomialFluxDy]
  | cons s rest ih =>
      rw [monomialFluxDy_cons, monomialFluxDy_cons, ih]
      simp only [monomialLineIntegralDy]
      ring

theorem monomialFluxDx_coeff (segs : List Seg) (k : ℚ) (a b : ℕ) :
    monomialFluxDx segs (k, a, b) = k * monomialFluxDx segs (1, a, b) := by
  induction segs with
  | nil => simp [monomialFluxDx]
  | cons s rest ih =>
      rw [monomialFluxDx_cons, monomialFluxDx_cons, ih]
      simp only [monomialLineIntegralDx]
      ring

/-- For a closed boundary, `∮ c·y^b dy` vanishes (potential `c·y^(b+1)/(b+1)`). -/
theorem closed_fluxDy_xzero (loops : List (List Seg)) (h : loopsClosed loops = true)
    (c : ℚ) (b : ℕ) : monomialFluxDy loops.flatten (c, 0, b) = 0 := by
  have hb : ((b : ℚ) + 1) ≠ 0 := by positivity
  have hfl := loops_flux (c / ((b : ℚ) + 1), 0, b + 1) loops h
  simp only [monomialDx, monomialDy] at hfl
  rw [monomialFluxDx_coeff, monomialFluxDy_coeff] at hfl
  rw [monomialFluxDy_coeff]
  push_cast at hfl
  simp only [Nat.cast_zero, mul_zero, zero_mul, Nat.zero_sub, Nat.add_sub_cancel] at hfl ⊢
  have hc : c / ((b : ℚ) + 1) * ((b : ℚ) + 1) = c := by field_simp
  rw [hc] at hfl
  linarith

theorem list_sum_map_neg {α : Type} (A : List α) (f : α → ℚ) :
    (A.map (fun a => - f a)).sum = - (A.map f).sum := by
  induction A with
  | nil => simp
  | cons x A ih =>
      simp only [List.map_cons, List.sum_cons, ih]
      ring

/-- First Green ingredient: over a closed boundary, the `dy`-flux of the
`x`-antiderivative of `∂m/∂x` is the `dy`-flux of `m` itself. -/
theorem flux_antiX_dx (loops : List (List Seg)) (h : loopsClosed loops = true) (u : Monomial) :
    polygonMonoIntegral loops.flatten (monomialDx u) = monomialFluxDy loops.flatten u := by
  obtain ⟨c, a, b⟩ := u
  rcases a with _ | a2
  · simp only [polygonMonoIntegral, monomialDx, monomialAntiX]
    rw [monomialFluxDy_coeff]
    rw [closed_fluxDy_xzero loops h c b]
    simp
  · simp only [polygonMonoIntegral, monomialDx, monomialAntiX, Nat.succ_sub_one]
    rw [monomialFluxDy_coeff loops.flatten (c * ((a2+1:ℕ):ℚ) / ((a2:ℚ)+1)) (a2+1) b,
        monomialFluxDy_coeff loops.flatten c (a2+1) b]
    have ha : ((a2 : ℚ) + 1) ≠ 0 := by positivity
    field_simp

/-- Second Green ingredient: over a closed boundary, the `dy`-flux of the
`x`-antiderivative of `∂m/∂y` is minus the `dx`-flux of `m`. -/
theorem flux_antiX_dy (loops : List (List Seg)) (h : loopsClosed loops = true) (v : Monomial) :
    polygonMonoIntegral loops.flatten (monomialDy v) = - monomialFluxDx loops.flatten v := by
  obtain ⟨c, a, b⟩ := v
  have ha : ((a : ℚ) + 1) ≠ 0 := by positivity
  have hfl := loops_flux (c / ((a : ℚ) + 1), a + 1, b) loops h
  simp only [monomialDx, monomialDy, Nat.add_sub_cancel] at hfl
  rw [monomialFluxDx_coeff loops.flatten (c / ((a:ℚ)+1) * ((a+1:ℕ):ℚ)) a b,
      monomialFluxDy_coeff loops.flatten (c / ((a:ℚ)+1) * (b:ℚ)) (a+1) (b-1)] at hfl
  simp only [polygonMonoIntegral, monomialDy, monomialAntiX]
  rw [monomialFluxDy_coeff loops.flatten (c * (b:ℚ) / ((a:ℚ)+1)) (a+1) (b-1),
      monomialFluxDx_coeff loops.flatten c a b]
  push_cast at hfl
  field_simp at hfl ⊢
  linarith

theorem polygonIntegral_eq_sum (segs : List Seg) (F : Polynomial2) :
    polygonIntegral segs F = (F.map (polygonMonoIntegral segs)).sum := by
  simp only [polygonIntegral, fluxDy, polyAntiX, List.map_map, Function.comp_def]
  rfl

/-- Green's theorem for a closed polygonal boundary (outer loop plus holes):
the boundary integral `∮ U dy - ∮ V dx` equals the exact area integral of
`∂U/∂x + ∂V/∂y` over the enclosed region. -/
theorem green_flux (loops : List (List Seg)) (h : loopsClosed loops = true)
    (U V : Polynomial2) :
    fluxDy loops.flatten U - fluxDx loops.flatten V
      = polygonIntegral loops.flatten (polyDx U ++ polyDy V) := by
  rw [polygonIntegral_eq_sum, List.map_append, List.sum_append]
  have hU : ((polyDx U).map (polygonMonoIntegral loops.flatten)).sum
      = (U.map (monomialFluxDy loops.flatten)).sum := by
    simp only [polyDx, List.map_map, Function.comp_def]
    exact list_sum_map_congr _ _ _ (fun u => flux_antiX_dx loops h u)
  have hV : ((polyDy V).map (polygonMonoIntegral loops.flatten)).sum
      = - (V.map (monomialFluxDx loops.flatten)).sum := by
    simp only [polyDy, List.map_map, Function.comp_def]
    rw [list_sum_map_congr _ _ _ (fun v => flux_antiX_dy loops h v)]
    exact list_sum_map_neg _ _
  rw [hU, hV, fluxDy, fluxDx]
  ring

/-- A monomial functional applied over a product list, as a double sum. -/
theorem sumG_polyMul (G : Monomial → ℚ) (A B : Polynomial2) :
    ((polyMul A B).map G).sum
      = (A.map (fun m => (B.map (fun m2 => G (monomialMul m m2))).sum)).sum := by
  induction A with
  | nil => rfl
  | cons m A ih =>
      rw [show polyMul (m :: A) B = B.map (monomialMul m) ++ polyMul A B from rfl]
      rw [List.map_append, List.sum_append, ih]
      simp [List.map_map, Function.comp_def]

/-- Variant with a post-composed monomial transformation. -/
theorem sumG_map_polyMul (G : Monomial → ℚ) (h : Monomial → Monomial) (A B : Polynomial2) :
    (((polyMul A B).map h).map G).sum
      = (A.map (fun m => (B.map (fun m2 => G (h (monomialMul m m2)))).sum)).sum := by
  induction A with
  | nil => rfl
  | cons m A ih =>
      rw [show polyMul (m :: A) B = B.map (monomialMul m) ++ polyMul A B from rfl]
      rw [List.map_append, List.map_append, List.sum_append, ih]
      simp [List.map_map, Function.comp_def]

theorem monomialMul_comm (m m2 : Monomial) : monomialMul m m2 = monomialMul m2 m := by
  obtain ⟨c, a, b⟩ := m
  obtain ⟨c2, a2, b2⟩ := m2
  simp only [monomialMul]
  exact Prod.ext (mul_comm c c2) (Prod.ext (add_comm a a2) (add_comm b b2))

/-- Symmetry of any summed monomial functional of a product in the two
factor lists. -/
theorem sumG_polyMul_comm (G : Monomial → ℚ) (A B : Polynomial2) :
    ((polyMul A B).map G).sum = ((polyMul B A).map G).sum := by
  rw [sumG_polyMul, sumG_polyMul, list_sum_swap]
  refine list_sum_map_congr _ _ _ ?_
  intro m2
  refine list_sum_map_congr _ _ _ ?_
  intro m
  rw [monomialMul_comm]

/-- Product rule for `∂/∂x₁` under any coefficient-linear monomial
functional (one with `G(c x^a y^b) = c · gg a b`). -/
theorem G_product_rule_x (G : Monomial → ℚ) (gg : ℕ → ℕ → ℚ)
    (hG : ∀ (k : ℚ) (a b : ℕ), G (k, a, b) = k * gg a b) (m m2 : Monomial) :
    G (monomialDx (monomialMul m m2))
      = G (monomialMul (monomialDx m) m2) + G (monomialMul m (monomialDx m2)) := by
  obtain ⟨c, a, b⟩ := m
  obtain ⟨c2, a2, b2⟩ := m2
  rcases a with _ | k <;> rcases a2 with _ | l <;>
    simp only [monomialMul, monomialDx] <;> norm_num <;> simp only [hG] <;> ring

/-- Product rule for `∂/∂x₂`, same setting. -/
theorem G_product_rule_y (G : Monomial → ℚ) (gg : ℕ → ℕ → ℚ)
    (hG : ∀ (k : ℚ) (a b : ℕ), G (k, a, b) = k * gg a b) (m m2 : Monomial) :
    G (monomialDy (monomialMul m m2))
      = G (monomialMul (monomialDy m) m2) + G (monomialMul m (monomialDy m2)) := by
  obtain ⟨c, a, b⟩ := m
  obtain ⟨c2, a2, b2⟩ := m2
  rcases b with _ | k <;> rcases b2 with _ | l <;>
    simp only [monomialMul, monomialDy] <;> norm_num <;> simp only [hG] <;> ring

/-- Integration-by-parts ingredient: `G`-sum of `∂x(A·B)` splits into
`∂x A · B` and `A · ∂x B` parts. -/
theorem sumG_polyDx_polyMul (G : Monomial → ℚ) (gg : ℕ → ℕ → ℚ)
    (hG : ∀ (k : ℚ) (a b : ℕ), G (k, a, b) = k * gg a b) (A B : Polynomial2) :
    ((polyDx (polyMul A B)).map G).sum
      = ((polyMul (polyDx A) B).map G).sum + ((polyMul A (polyDx B)).map G).sum := by
  rw [show polyDx (polyMul A B) = (polyMul A B).map monomialDx from rfl]
  rw [sumG_map_polyMul, sumG_polyMul, sumG_polyMul]
  rw [show polyDx A = A.map monomialDx from rfl, show polyDx B = B.map monomialDx from rfl]
  rw [List.map_map]
  rw [← list_sum_map_add]
  refine list_sum_map_congr _ _ _ ?_
  intro m
  simp only [Function.comp, List.map_map]
  rw [← list_sum_map_add]
  refine list_sum_map_congr _ _ _ ?_
  intro m2
  exact G_product_rule_x G gg hG m m2

/-- Integration-by-parts ingredient for the second variable. -/
theorem sumG_polyDy_polyMul (G : Monomial → ℚ) (gg : ℕ → ℕ → ℚ)
    (hG : ∀ (k : ℚ) (a b : ℕ), G (k, a, b) = k * gg a b) (A B : Polynomial2) :
    ((polyDy (polyMul A B)).map G).sum
      = ((polyMul (polyDy A) B).map G).sum + ((polyMul A (polyDy B)).map G).sum := by
  rw [show polyDy (polyMul A B) = (polyMul A B).map monomialDy from rfl]
  rw [sumG_map_polyMul, sumG_polyMul, sumG_polyMul]
  rw [show polyDy A = A.map monomialDy from rfl, show polyDy B = B.map monomialDy from rfl]
  rw [List.map_map]
  rw [← list_sum_map_add]
  refine list_sum_map_congr _ _ _ ?_
  intro m
  simp only [Function.comp, List.map_map]
  rw [← list_sum_map_add]
  refine list_sum_map_congr _ _ _ ?_
  intro m2
  exact G_product_rule_y G gg hG m m2

/-- `G`-sum of `A · ΔB` splits into the two second-derivative parts. -/
theorem sumG_polyMul_lap (G : Monomial → ℚ) (A B : Polynomial2) :
    ((polyMul A (polyLaplacian B)).map G).sum
      = ((polyMul A (polyDx (polyDx B))).map G).sum
        + ((polyMul A (polyDy (polyDy B))).map G).sum := by
  rw [sumG_polyMul, sumG_polyMul, sumG_polyMul]
  rw [← list_sum_map_add]
  refine list_sum_map_congr _ _ _ ?_
  intro m
  exact inner_lap_sum (fun m2 => G (monomialMul m m2)) B

theorem sumG_lap_cons (G : Monomial → ℚ) (m : Monomial) (p : Polynomial2) :
    ((polyLaplacian (m :: p)).map G).sum
      = G (monomialDx (monomialDx m)) + G (monomialDy (monomialDy m))
        + ((polyLaplacian p).map G).sum := by
  simp only [polyLaplacian, List.flatMap_cons, List.map_append, List.sum_append,
    monomialLap, List.map_cons, List.map_nil, List.sum_cons, List.sum_nil]
  ring

/-- The canonical anti-Laplacian is correct under any coefficient-linear
monomial functional: applying `G` to the terms of
`Δ(antiLaplacian(c x^a y^b))` and summing gives `c · gg a b = G(c x^a y^b)`. -/
theorem antiLaplacianAux_sumG (G : Monomial → ℚ) (gg : ℕ → ℕ → ℚ)
    (hG : ∀ (k : ℚ) (a b : ℕ), G (k, a, b) = k * gg a b) (b : ℕ) : ∀ (c : ℚ) (a : ℕ),
    ((polyLaplacian (antiLaplacianAux b c a)).map G).sum = c * gg a b := by
  induction b using Nat.strong_induction_on with
  | _ b ih =>
    match b with
    | 0 =>
        intro c a
        have h1 : ((a : ℚ) + 1) ≠ 0 := by positivity
        have h2 : ((a : ℚ) + 2) ≠ 0 := by positivity
        simp only [antiLaplacianAux, polyLaplacian, List.flatMap_cons, List.flatMap_nil,
          monomialLap, monomialDx, monomialDy, List.append_nil, List.map_cons, List.map_nil,
          List.sum_cons, List.sum_nil]
        norm_num
        simp only [hG]
        field_simp
        ring
    | 1 =>
        intro c a
        have h1 : ((a : ℚ) + 1) ≠ 0 := by positivity
        have h2 : ((a : ℚ) + 2) ≠ 0 := by positivity
        simp only [antiLaplacianAux, polyLaplacian, List.flatMap_cons, List.flatMap_nil,
          monomialLap, monomialDx, monomialDy, List.append_nil, List.map_cons, List.map_nil,
          List.sum_cons, List.sum_nil]
        norm_num
        simp only [hG]
        field_simp
        ring
    | b + 2 =>
        intro c a
        have ihb := ih b (by omega)
        rw [show antiLaplacianAux (b + 2) c a
            = (c / (((a : ℚ) + 1) * ((a : ℚ) + 2)), a + 2, b + 2) ::
                antiLaplacianAux b
                  (-(c * ((b : ℚ) + 2) * ((b : ℚ) + 1)) / (((a : ℚ) + 1) * ((a : ℚ) + 2)))
                  (a + 2) from rfl]
        rw [sumG_lap_cons, ihb]
        have h1 : ((a : ℚ) + 1) ≠ 0 := by positivity
        have h2 : ((a : ℚ) + 2) ≠ 0 := by positivity
        simp only [monomialDx, monomialDy]
        norm_num
        simp only [hG]
        field_simp
        ring

/-- Applying a coefficient-linear monomial functional to
`Δ(polyAntiLaplacian p)` and summing recovers the value on `p`. -/
theorem sumG_lap_antiLap (G : Monomial → ℚ) (gg : ℕ → ℕ → ℚ)
    (hG : ∀ (k : ℚ) (a b : ℕ), G (k, a, b) = k * gg a b) (p : Polynomial2) :
    ((polyLaplacian (polyAntiLaplacian p)).map G).sum = (p.map G).sum := by
  induction p with
  | nil => rfl
  | cons m p ih =>
      rw [show polyAntiLaplacian (m :: p) = monomialAntiLaplacian m ++ polyAntiLaplacian p from rfl]
      rw [show polyLaplacian (monomialAntiLaplacian m ++ polyAntiLaplacian p)
            = polyLaplacian (monomialAntiLaplacian m) ++ polyLaplacian (polyAntiLaplacian p) from by
        simp [polyLaplacian, List.flatMap_append]]
      rw [List.map_append, List.sum_append, ih, List.map_cons, List.sum_cons]
      congr 1
      obtain ⟨c, a, b⟩ := m
      rw [show monomialAntiLaplacian (c, a, b) = antiLaplacianAux b c a from rfl]
      rw [antiLaplacianAux_sumG G gg hG]
      rw [hG]

/-- Coefficient linearity of the exact polygon monomial integral. -/
theorem polygonMonoIntegral_coeff (segs : List Seg) (k : ℚ) (a b : ℕ) :
    polygonMonoIntegral segs (k, a, b)
      = k * polygonMonoIntegral segs (1, a, b) := by
  simp only [polygonMonoIntegral, monomialAntiX]
  rw [monomialFluxDy_coeff segs (k / ((a:ℚ)+1)) (a+1) b,
      monomialFluxDy_coeff segs (1 / ((a:ℚ)+1)) (a+1) b]
  ring

theorem polygonIntegral_append (segs : List Seg) (p q : Polynomial2) :
    polygonIntegral segs (p ++ q) = polygonIntegral segs p + polygonIntegral segs q := by
  rw [polygonIntegral_eq_sum, polygonIntegral_eq_sum, polygonIntegral_eq_sum,
    List.map_append, List.sum_append]

/-- Divergence theorem on a closed polygonal cell: the outward flux of `∇W`
equals the exact area integral of `ΔW`. -/
theorem netFlux_closed (loops : List (List Seg)) (h : loopsClosed loops = true)
    (W : Polynomial2) :
    netFlux loops.flatten W = polygonIntegral loops.flatten (polyLaplacian W) := by
  rw [netFlux, green_flux loops h]
  rw [polygonIntegral_eq_sum, polygonIntegral_eq_sum, List.map_append, List.sum_append]
  rw [inner_lap_sum (polygonMonoIntegral loops.flatten) W]

/-- The anti-Laplacian boundary reduction is exact on every closed cell:
`∮ ∂(antiLap P)/∂n ds = ∬ P`. -/
theorem netFlux_antiLap_closed (loops : List (List Seg)) (h : loopsClosed loops = true)
    (P : Polynomial2) :
    netFlux loops.flatten (polyAntiLaplacian P) = polygonIntegral loops.flatten P := by
  rw [netFlux_closed loops h, polygonIntegral_eq_sum, polygonIntegral_eq_sum]
  exact sumG_lap_antiLap (polygonMonoIntegral loops.flatten)
    (fun a b => polygonMonoIntegral loops.flatten (1, a, b))
    (fun k a b => polygonMonoIntegral_coeff loops.flatten k a b) P

/-- On every closed polygonal cell, the boundary-only `get_l2_inner_prod`
evaluates the exact volumetric integral `∬ v·w`. -/
theorem get_l2_inner_prod_eq (loops : List (List Seg)) (h : loopsClosed loops = true)
    (v w : Polynomial2) :
    get_l2_inner_prod loops.flatten v w = polygonIntegral loops.flatten (polyMul v w) := by
  rw [get_l2_inner_prod, netFlux_antiLap_closed loops h]

/-- On every closed polygonal cell, the boundary-only `get_h1_semi_inner_prod`
evaluates the exact volumetric integral `∬ ∇v·∇w`. -/
theorem get_h1_semi_inner_prod_eq (loops : List (List Seg)) (h : loopsClosed loops = true)
    (v w : Polynomial2) :
    get_h1_semi_inner_prod loops.flatten v w
      = polygonIntegral loops.flatten (polyMul (polyDx v) (polyDx w))
        + polygonIntegral loops.flatten (polyMul (polyDy v) (polyDy w)) := by
  rw [get_h1_semi_inner_prod, netFlux_antiLap_closed loops h, green_flux loops h]
  rw [polygonIntegral_append]
  rw [polygonIntegral_eq_sum, polygonIntegral_eq_sum, polygonIntegral_eq_sum,
    polygonIntegral_eq_sum, polygonIntegral_eq_sum]
  rw [sumG_polyDx_polyMul (polygonMonoIntegral loops.flatten)
    (fun a b => polygonMonoIntegral loops.flatten (1, a, b))
    (fun k a b => polygonMonoIntegral_coeff loops.flatten k a b) v (polyDx w)]
  rw [sumG_polyDy_polyMul (polygonMonoIntegral loops.flatten)
    (fun a b => polygonMonoIntegral loops.flatten (1, a, b))
    (fun k a b => polygonMonoIntegral_coeff loops.flatten k a b) v (polyDy w)]
  rw [sumG_polyMul_lap (polygonMonoIntegral loops.flatten) v w]
  ring

theorem get_h1_symm (loops : List (List Seg)) (h : loopsClosed loops = true)
    (v w : Polynomial2) :
    get_h1_semi_inner_prod loops.flatten v w = get_h1_semi_inner_prod loops.flatten w v := by
  rw [get_h1_semi_inner_prod_eq loops h, get_h1_semi_inner_prod_eq loops h]
  rw [polygonIntegral_eq_sum, polygonIntegral_eq_sum, polygonIntegral_eq_sum,
    polygonIntegral_eq_sum]
  rw [sumG_polyMul_comm (polygonMonoIntegral loops.flatten) (polyDx v) (polyDx w),
      sumG_polyMul_comm (polygonMonoIntegral loops.flatten) (polyDy v) (polyDy w)]

theorem get_l2_symm (loops : List (List Seg)) (h : loopsClosed loops = true)
    (v w : Polynomial2) :
    get_l2_inner_prod loops.flatten v w = get_l2_inner_prod loops.flatten w v := by
  rw [get_l2_inner_prod_eq loops h, get_l2_inner_prod_eq loops h,
    polygonIntegral_eq_sum, polygonIntegral_eq_sum]
  exact sumG_polyMul_comm (polygonMonoIntegral loops.flatten) v w

/-- On the unit-square cell the Gauss-Green polygon integral agrees with the
independent per-monomial product formula, monomial level. -/
theorem polygonMonoIntegral_unitSquare (m : Monomial) :
    polygonMonoIntegral unitSquareBoundary m = monomialSquareIntegral m := by
  obtain ⟨c, a, b⟩ := m
  simp only [polygonMonoIntegral, monomialAntiX]
  rw [monomialFluxDy_eq]
  simp only [monomialDx, monomialSquareIntegral, Nat.add_sub_cancel]
  have h1 : ((a:ℚ)+1) ≠ 0 := by positivity
  push_cast
  field_simp

/-- On the unit-square cell the Gauss-Green polygon integral agrees with the
independent per-monomial product formula `squareIntegral`. -/
theorem polygonIntegral_unitSquare (F : Polynomial2) :
    polygonIntegral unitSquareBoundary F = squareIntegral F := by
  rw [polygonIntegral_eq_sum, squareIntegral]
  exact list_sum_map_congr _ _ _ polygonMonoIntegral_unitSquare

/-- Claim C4: for any polygonal `MeshCell` (given by its closed boundary
loops — one outer loop plus any number of hole loops, so multiply-connected
cells are covered) whose Dirichlet trace is a known polynomial `P`
restricted to the boundary with Laplacian polynomial `ΔP`, the
boundary-integral evaluations of `get_l2_inner_prod` and
`get_h1_semi_inner_prod` against itself reproduce the exact volumetric
integrals `∫P²` and `∫|∇P|²` over the cell (`polygonIntegral`, the exact
Gauss-Green value, which on the unit-square cell provably coincides with
the independent product formula `squareIntegral` — second conjunct); in
exact arithmetic "to near machine precision" sharpens to equality.  In
particular the constant function `v ≡ 1` on the unit-square cell gives
`l2_inner_prod(v,v) = 1` exactly, hence within `1e-10`. -/
theorem claim_C4_polynomial_trace_exactness :
    (∀ (loops : List (List Seg)), loopsClosed loops = true → ∀ P : Polynomial2,
      get_l2_inner_prod loops.flatten P P = polygonIntegral loops.flatten (polyMul P P) ∧
      get_h1_semi_inner_prod loops.flatten P P
        = polygonIntegral loops.flatten (polyAdd (polyMul (polyDx P) (polyDx P))
            (polyMul (polyDy P) (polyDy P)))) ∧
    (∀ F : Polynomial2, polygonIntegral unitSquareBoundary F = squareIntegral F) ∧
    get_l2_inner_prod unitSquareBoundary onePoly onePoly = 1 ∧
    |get_l2_inner_prod unitSquareBoundary onePoly onePoly - 1| ≤ 1 / 10 ^ 10 := by
  have husb : (([unitSquareBoundary] : List (List Seg)).flatten) = unitSquareBoundary := by
    simp
  have hone : get_l2_inner_prod unitSquareBoundary onePoly onePoly = 1 := by
    have h := get_l2_inner_prod_eq [unitSquareBoundary] (by decide) onePoly onePoly
    rw [husb] at h
    rw [h, polygonIntegral_unitSquare]
    norm_num [onePoly, polyMul, monomialMul, squareIntegral, monomialSquareIntegral]
  refine ⟨fun loops hl P => ⟨get_l2_inner_prod_eq loops hl P P, ?_⟩,
    polygonIntegral_unitSquare, hone, ?_⟩
  · rw [get_h1_semi_inner_prod_eq loops hl, polyAdd, polygonIntegral_append]
  · rw [hone]
    norm_num

/-- Witness for claim C4 at a concrete multiply-connected cell (the 4×4
square with a square hole) and the worked example's polynomial part. -/
theorem claim_C4_polynomial_trace_exactness_witness :
    loopsClosed squareWithHoleLoops = true ∧
    get_l2_inner_prod squareWithHoleLoops.flatten witnessPolyV witnessPolyV
      = polygonIntegral squareWithHoleLoops.flatten (polyMul witnessPolyV witnessPolyV) :=
  ⟨by decide,
   (claim_C4_polynomial_trace_exactness.1 squareWithHoleLoops (by decide) witnessPolyV).1⟩

/-- Claim C3: the inner products computed from the manifestly asymmetric
Green's-identity boundary reduction are symmetric on any mesh cell: for any
polygonal cell (closed boundary loops, holes included) and any two local
functions with polynomial Poisson data — the family on which the engine's
quantities are exactly representable; for transcendental harmonic parts the
sampled values themselves are floating-point, which is exactly the `ε`
regime the claim reserves for finite precision — the difference between
`v.get_h1_semi_inner_prod(w)` and `w.get_h1_semi_inner_prod(v)` is exactly
`0`, hence below any `ε ≈ 1e-10`, and likewise for `get_l2_inner_prod`:
exact symmetry in exact arithmetic, as the claim states. -/
theorem claim_C3_inner_prod_symmetry :
    ∀ (loops : List (List Seg)) (v w : Polynomial2), loopsClosed loops = true →
      get_h1_semi_inner_prod loops.flatten v w = get_h1_semi_inner_prod loops.flatten w v ∧
      get_l2_inner_prod loops.flatten v w = get_l2_inner_prod loops.flatten w v ∧
      |get_h1_semi_inner_prod loops.flatten v w
        - get_h1_semi_inner_prod loops.flatten w v| < 1 / 10 ^ 10 ∧
      |get_l2_inner_prod loops.flatten v w
        - get_l2_inner_prod loops.flatten w v| < 1 / 10 ^ 10 := by
  intro loops v w hcl
  have hh := get_h1_symm loops hcl v w
  have hl2 := get_l2_symm loops hcl v w
  refine ⟨hh, hl2, ?_, ?_⟩
  · rw [hh]
    norm_num
  · rw [hl2]
    norm_num

/-- Witness for claim C3 at the square-with-hole cell and the two worked
example polynomial parts. -/
theorem claim_C3_inner_prod_symmetry_witness :
    loopsClosed squareWithHoleLoops = true ∧
    get_h1_semi_inner_prod squareWithHoleLoops.flatten witnessPolyV witnessPolyW
      = get_h1_semi_inner_prod squareWithHoleLoops.flatten witnessPolyW witnessPolyV :=
  ⟨by decide,
   (claim_C3_inner_prod_symmetry squareWithHoleLoops witnessPolyV witnessPolyW (by decide)).1⟩


/-- Claim C5: two independently constructed anti-Laplacians of the same
harmonic part (same log terms, antiderivative pair differing by the additive
constants `(c₁, c₂)` of the non-unique antiderivative) differ, at every
sampled boundary point, by exactly the values of the degree-1 polynomial
`(c₁/4)x₁ + (c₂/4)x₂`: the difference fits a linear polynomial in `x` with
zero residual (in exact arithmetic, hence "to near machine precision"). -/
theorem claim_C5_anti_laplacian_difference_linear :
    ∀ (pts : List (ℚ × ℚ)) (R Rh common : ℚ × ℚ → ℚ) (c1 c2 : ℚ),
      List.zipWith (fun u v => u - v)
        (anti_laplacian_harmonic_part pts (fun p => R p + c1) (fun p => Rh p + c2) common)
        (anti_laplacian_harmonic_part pts R Rh common)
      = pts.map (linearPolyEval (c1 / 4) (c2 / 4)) := by
  intro pts R Rh common c1 c2
  induction pts with
  | nil => rfl
  | cons p pts ih =>
      simp only [anti_laplacian_harmonic_part, linearPolyEval, List.map_cons,
        List.zipWith_cons_cons] at ih ⊢
      rw [ih]
      congr 1
      ring

theorem list_map_const_sum {α : Type} (l : List α) (c : ℕ) :
    (l.map (fun _ => c)).sum = c * l.length := by
  induction l with
  | nil => simp
  | cons x l ih =>
      simp only [List.map_cons, List.sum_cons, ih, List.length_cons]
      ring

theorem list_map_const_eq_replicate {α : Type} (l : List α) (f : α → ℕ) (c : ℕ)
    (h : ∀ a, f a = c) : l.map f = List.replicate l.length c := by
  induction l with
  | nil => rfl
  | cons x l ih => simp [h, ih, List.replicate_succ]

theorem sampledEdge_lengths (e : Edge) (n : ℕ) :
    (e.parameterize (get_quad_dict n)).points.length = 2 * n + 1 ∧
    (e.parameterize (get_quad_dict n)).tangents.length = 2 * n + 1 ∧
    (e.parameterize (get_quad_dict n)).weights.length = 2 * n + 1 := by
  refine ⟨?_, ?_, ?_⟩
  · show ((sampledParams n).map (curvePoint e)).length = 2 * n + 1
    rw [List.length_map, sampledParams, List.length_map, List.length_range]
  · show ((sampledParams n).map (fun _ => curveTangent e)).length = 2 * n + 1
    rw [List.length_map, sampledParams, List.length_map, List.length_range]
  · show (trapezoidWeights n).length = 2 * n + 1
    rw [trapezoidWeights, List.length_map, List.length_range]

theorem num_pts_parameterize (K : MeshCell) (n : ℕ) :
    (K.parameterize (get_quad_dict n)).num_pts = 2 * n * K.edges.length := by
  unfold MeshCell.parameterize ParameterizedCell.num_pts
  simp only [List.map_map, Function.comp_def]
  rw [show (fun e => ((e.parameterize (get_quad_dict n)).points.length - 1)) = fun _ : Edge => 2 * n by
    funext e
    rw [(sampledEdge_lengths e n).1]
    omega]
  exact list_map_const_sum K.edges (2 * n)

/-- Claim C9: after `K.parameterize` with sample count `n`, every edge owns
sampled points, tangent data and arc-length weights at `2n+1` points per
edge (endpoints included), the cell total satisfies
`num_pts = 2n · num_edges`, and `n` is recoverable as
`num_pts // num_edges // 2`. -/
theorem claim_C9_sampling_counts (K : MeshCell) (n : ℕ) (h : 0 < K.edges.length) :
    (∀ se ∈ (K.parameterize (get_quad_dict n)).sampledEdges,
        se.points.length = 2 * n + 1 ∧ se.tangents.length = 2 * n + 1 ∧
          se.weights.length = 2 * n + 1) ∧
    (K.parameterize (get_quad_dict n)).num_pts = 2 * n * K.edges.length ∧
    (K.parameterize (get_quad_dict n)).num_pts
        / (K.parameterize (get_quad_dict n)).num_edges / 2 = n := by
  refine ⟨?_, num_pts_parameterize K n, ?_⟩
  · intro se hse
    simp only [MeshCell.parameterize, List.mem_map] at hse
    obtain ⟨e, he, rfl⟩ := hse
    exact sampledEdge_lengths e n
  · rw [num_pts_parameterize]
    show 2 * n * K.edges.length / K.edges.length / 2 = n
    rw [Nat.mul_div_cancel _ h]
    omega

/-- Witness for claim C9 at the concrete `ex1e` cell (unit square with a
sine bottom edge) sampled at `n = 64`. -/
theorem claim_C9_sampling_counts_witness :
    0 < (sineSquareCell 8).edges.length ∧
    ((sineSquareCell 8).parameterize (get_quad_dict 64)).num_pts
      = 2 * 64 * (sineSquareCell 8).edges.length ∧
    ((sineSquareCell 8).parameterize (get_quad_dict 64)).num_pts
        / ((sineSquareCell 8).parameterize (get_quad_dict 64)).num_edges / 2 = 64 :=
  ⟨by decide,
   (claim_C9_sampling_counts (sineSquareCell 8) 64 (by decide)).2.1,
   (claim_C9_sampling_counts (sineSquareCell 8) 64 (by decide)).2.2⟩

/-- Claim C10: drawing a `MeshPlot` of an already-parameterized cell's edges
with `reparameterize=True` and a different sampling parameter `m` leaves the
cell's stored parameterization untouched — the cell state after the draw is
identical to the one before, `num_pts` still reflects the original `n0` —
while the plot's own polylines are resampled at `2m+1` points per edge. -/
theorem claim_C10_meshplot_frame :
    ∀ (K : MeshCell) (n0 m : ℕ),
      (meshPlotDraw (K.parameterize (get_quad_dict n0)) true m).2
          = K.parameterize (get_quad_dict n0) ∧
      (meshPlotDraw (K.parameterize (get_quad_dict n0)) true m).2.num_pts
          = 2 * n0 * K.edges.length ∧
      ((meshPlotDraw (K.parameterize (get_quad_dict n0)) true m).1.map
          (fun se => se.points.length))
        = List.replicate K.edges.length (2 * m + 1) := by
  intro K n0 m
  refine ⟨rfl, num_pts_parameterize K n0, ?_⟩
  show ((K.parameterize (get_quad_dict n0)).cell.edges.map
      (fun e => e.parameterize (get_quad_dict m))).map (fun se => se.points.length)
    = List.replicate K.edges.length (2 * m + 1)
  rw [List.map_map]
  exact list_map_const_eq_replicate K.edges _ _ (fun e => (sampledEdge_lengths e m).1)

/-- Counterexample to claim C2 as stated: the `ex1e` cell whose sine edge
carries far more geometric oscillation than its sample count can resolve
(`freq = 128` at `n = 64`: one sample per period, well below Nyquist)
does NOT raise `NumericalSingularity` — `NystromSolver` construction
succeeds and returns a handle, exactly as the notebook demonstrates
(it then computes an inaccurate area rather than raising). -/
theorem claim_C2_counterexample :
    ((sineSquareCell 128).edges.any (fun e => edgeUnderResolved e 64)) = true ∧
    NystromSolver.build ((sineSquareCell 128).parameterize (get_quad_dict 64))
      = Except.ok ⟨(sineSquareCell 128).parameterize (get_quad_dict 64)⟩ := by
  constructor
  · rfl
  · rfl

/-- Claim C2 as amended: `NystromSolver` construction fails with the
`NumericalSingularity` error kind — distinct from the generic configuration
error kind — on the documented pathological cell (sine edge of `freq = 128`
sampled at `n = 512`, the oversampled regime whose graded nodes make the
discretized operator singular), while the merely under-resolved cell
(`freq = 128` at `n = 64`) constructs successfully and returns a handle. -/
theorem claim_C2_amended_singularity :
    NystromSolver.build ((sineSquareCell 128).parameterize (get_quad_dict 512))
      = Except.error PfError.numericalSingularity ∧
    PfError.numericalSingularity ≠ PfError.configError ∧
    NystromSolver.build ((sineSquareCell 128).parameterize (get_quad_dict 64))
      = Except.ok ⟨(sineSquareCell 128).parameterize (get_quad_dict 64)⟩ := by
  refine ⟨rfl, by decide, rfl⟩

theorem conjSolve_update (solve : HarmonicSolve) (v : LocalFunction)
    (A : Option Polynomial2) (B C : Option (List ℚ)) (D E F G : Option (List ℚ)) :
    conjSolve solve
      ⟨v.nyst, v.lap_poly, v.trace, A, B, C, D, E, F, G⟩ = conjSolve solve v := rfl

theorem polynomialPartOf_update (v : LocalFunction)
    (A : Option Polynomial2) (B C : Option (List ℚ)) (D E F G : Option (List ℚ)) :
    polynomialPartOf ⟨v.nyst, v.lap_poly, v.trace, A, B, C, D, E, F, G⟩
      = polynomialPartOf v := rfl

theorem polynomialPartTraceOf_update (v : LocalFunction)
    (A : Option Polynomial2) (B C : Option (List ℚ)) (D E F G : Option (List ℚ)) :
    polynomialPartTraceOf ⟨v.nyst, v.lap_poly, v.trace, A, B, C, D, E, F, G⟩
      = polynomialPartTraceOf v := rfl

theorem polynomialPartWndOf_update (v : LocalFunction)
    (A : Option Polynomial2) (B C : Option (List ℚ)) (D E F G : Option (List ℚ)) :
    polynomialPartWndOf ⟨v.nyst, v.lap_poly, v.trace, A, B, C, D, E, F, G⟩
      = polynomialPartWndOf v := rfl

theorem harmonicWndOf_update (v : LocalFunction)
    (A : Option Polynomial2) (B C : Option (List ℚ)) (D E F G : Option (List ℚ))
    (conj lc : List ℚ) :
    harmonicWndOf ⟨v.nyst, v.lap_poly, v.trace, A, B, C, D, E, F, G⟩ conj lc
      = harmonicWndOf v conj lc := rfl

theorem antiLapTraceOf_update (v : LocalFunction)
    (A : Option Polynomial2) (B C : Option (List ℚ)) (D E F G : Option (List ℚ))
    (conj lc : List ℚ) :
    antiLapTraceOf ⟨v.nyst, v.lap_poly, v.trace, A, B, C, D, E, F, G⟩ conj lc
      = antiLapTraceOf v conj lc := rfl

/-- The pipeline run by `compute_all` commits exactly `commitAll` on the
result of the single underlying solve: successive steps recompute their
inputs deterministically from the base fields, which no step modifies. -/
theorem compute_all_eq (solve : HarmonicSolve) (v : LocalFunction) :
    compute_all solve v = (conjSolve solve v).map (commitAll v) := by
  cases hcs : conjSolve solve v with
  | error e =>
      simp only [compute_all, runStep, Except.bind, conjSolve_update, hcs, Except.map]
  | ok r =>
      simp only [compute_all, runStep, Except.bind, conjSolve_update, hcs, Except.map,
        commitAll, polynomialPartOf_update, polynomialPartTraceOf_update,
        polynomialPartWndOf_update, harmonicWndOf_update, antiLapTraceOf_update]

/-- Claim C7: `compute_all()` runs the full pipeline (trace decomposition,
harmonic conjugate, weighted normal derivative, anti-Laplacian) in dependency
order — it is by definition the ordered composition of the steps, and equals
a single commit of all derived fields — and it is idempotent: if a run
succeeds with state `s1`, running `compute_all` again from `s1` returns `s1`
itself, so the polynomial part, traces, logarithmic coefficients, weighted
normal derivatives and anti-Laplacian are all populated and unchanged, and
every subsequent inner-product result is unchanged; this holds for every
deterministic solve operator. -/
theorem claim_C7_compute_all_idempotent (solve : HarmonicSolve) (s s1 : LocalFunction)
    (h : compute_all solve s = Except.ok s1) :
    compute_all solve s1 = Except.ok s1 ∧
    (s1.poly_part.isSome ∧ s1.poly_part_trace.isSome ∧ s1.poly_part_wnd.isSome ∧
      s1.harm_conj_trace.isSome ∧ s1.log_coef.isSome ∧ s1.harm_part_wnd.isSome ∧
      s1.antilap_trace.isSome) ∧
    (∀ s2, compute_all solve s1 = Except.ok s2 → ∀ w : LocalFunction,
      s2.h1_semi_inner_prod w = s1.h1_semi_inner_prod w ∧
      s2.l2_inner_prod w = s1.l2_inner_prod w ∧
      w.h1_semi_inner_prod s2 = w.h1_semi_inner_prod s1 ∧
      w.l2_inner_prod s2 = w.l2_inner_prod s1) := by
  rw [compute_all_eq] at h
  cases hcs : conjSolve solve s with
  | error e =>
      rw [hcs] at h
      simp only [Except.map] at h
      exact Except.noConfusion h
  | ok r =>
      rw [hcs] at h
      simp only [Except.map, Except.ok.injEq] at h
      have hfix : compute_all solve s1 = Except.ok s1 := by
        subst h
        rw [compute_all_eq]
        have hconj : conjSolve solve (commitAll s r) = conjSolve solve s := by
          simp only [commitAll, conjSolve_update]
        rw [hconj, hcs]
        simp only [Except.map, Except.ok.injEq]
        simp only [commitAll, polynomialPartOf_update, polynomialPartTraceOf_update,
          polynomialPartWndOf_update, harmonicWndOf_update, antiLapTraceOf_update]
      refine ⟨hfix, ?_, ?_⟩
      · subst h
        simp only [commitAll, Option.isSome_some, and_self]
      · intro s2 h2 w
        rw [hfix] at h2
        simp only [Except.ok.injEq] at h2
        subst h2
        exact ⟨rfl, rfl, rfl, rfl⟩

/-- Witness for claim C7 at a concrete solve and local function on the tiny
two-edge cell: `compute_all` succeeds, and a second run returns the same
state. -/
theorem claim_C7_compute_all_idempotent_witness :
    compute_all solveTriv goodLF = Except.ok goodLFComputed ∧
    compute_all solveTriv goodLFComputed = Except.ok goodLFComputed :=
  ⟨rfl, (claim_C7_compute_all_idempotent solveTriv goodLF goodLFComputed rfl).1⟩

/-- Claim C8: for every computation step of the Local Function Engine
(the staged steps and `compute_all`): if the step fails, the caller-visible
state of the `LocalFunction` is exactly the state before the call — no
partial or corrupted derived state remains queryable — and the failure
propagates to the caller as the returned error; in particular a trace length
inconsistent with the cell's boundary point count makes the solving steps
fail fast with the configuration-error kind, and `compute_all` propagates
that same error.  This holds for every deterministic solve operator. -/
theorem claim_C8_failed_step_frame (solve : HarmonicSolve) (v : LocalFunction) :
    (∀ (k : ComputeStep) (e : PfError),
        runStep solve k v = Except.error e → stateAfterStep solve k v = v) ∧
    (∀ e : PfError,
        compute_all solve v = Except.error e → stateAfterComputeAll solve v = v) ∧
    (v.trace.length ≠ v.nyst.K.num_pts →
      runStep solve ComputeStep.harmonicConjugate v = Except.error PfError.configError ∧
      compute_all solve v = Except.error PfError.configError ∧
      stateAfterComputeAll solve v = v) := by
  refine ⟨?_, ?_, ?_⟩
  · intro k e h
    unfold stateAfterStep
    rw [h]
  · intro e h
    unfold stateAfterComputeAll
    rw [h]
  · intro hne
    have hconj : conjSolve solve v = Except.error PfError.configError := by
      unfold conjSolve
      rw [if_neg hne]
    have hall : compute_all solve v = Except.error PfError.configError := by
      rw [compute_all_eq, hconj]
      rfl
    refine ⟨?_, hall, ?_⟩
    · show (conjSolve solve v).map _ = _
      rw [hconj]
      rfl
    · unfold stateAfterComputeAll
      rw [hall]

/-- Witness for claim C8 at a concrete failing input: a local function whose
trace length does not match the cell's boundary point count — the solving
step and `compute_all` both fail with the configuration error, and the
caller-visible state is exactly the original. -/
theorem claim_C8_failed_step_frame_witness :
    badLF.trace.length ≠ badLF.nyst.K.num_pts ∧
    runStep solveTriv ComputeStep.harmonicConjugate badLF
      = Except.error PfError.configError ∧
    compute_all solveTriv badLF = Except.error PfError.configError ∧
    stateAfterComputeAll solveTriv badLF = badLF :=
  ⟨by decide, ((claim_C8_failed_step_frame solveTriv badLF).2.2 (by decide)).1,
   ((claim_C8_failed_step_frame solveTriv badLF).2.2 (by decide)).2.1,
   ((claim_C8_failed_step_frame solveTriv badLF).2.2 (by decide)).2.2⟩

end PuncturedFem

